import Mathlib

/-!
# Verification of the FighterNFT contract

Shallow embedding of the `FighterNFT` Solidity contract (an ERC-721-style
registry of "fighter" tokens whose three attributes are stored as encrypted
FHE handles) together with proofs about its operations.

Modelling conventions:
* Addresses, token ids and ciphertext handles are all natural numbers;
  address `0` is the null address (Solidity `address(0)`).
* Solidity `uint256` counters are modelled as `Nat`.  Solidity 0.8 uses
  checked arithmetic, so no silent wraparound exists; the checked
  subtractions and array-bound accesses of the source are modelled
  explicitly as `Panic` errors.
* `FHE.asEuint32` produces a fresh opaque ciphertext handle on each call;
  the model draws handles from the `nextHandle` counter.  `FHE.allow` and
  `FHE.allowThis` populate the append-only ACL maps `acl` / `aclThis`.
* A reverting external call leaves the storage unchanged; operations are
  therefore functions `State → Except Err _` and the state advances only on
  an `Except.ok` result (see `Reachable` / `stepState`).
-/

namespace FighterNFT

/-- `struct FighterAttributes { euint32 agility; euint32 strength; euint32 stamina; }`,
with each `euint32` represented by its opaque ciphertext handle. -/
structure FighterAttributes where
  agility : Nat
  strength : Nat
  stamina : Nat
deriving DecidableEq, Repr

/-- The custom errors of the contract, plus `Panic` for Solidity 0.8
checked-arithmetic / array-bounds reverts. -/
inductive Err : Type where
  | FighterDoesNotExist : Nat → Err
  | TokenAlreadyMinted : Nat → Err
  | NotAuthorized : Err
  | InvalidAddress : Err
  | AttributeTotalMismatch : Err
  | AttributeOutOfRange : Err
  | Panic : Err
deriving DecidableEq, Repr

/-- The contract storage, plus the FHE coprocessor's handle counter and ACL. -/
structure State where
  nextTokenId : Nat
  totalMinted : Nat
  owners : Nat → Nat
  balances : Nat → Nat
  tokenApprovals : Nat → Nat
  operatorApprovals : Nat → Nat → Bool
  fighterAttributes : Nat → FighterAttributes
  ownedTokens : Nat → List Nat
  ownedTokensIndex : Nat → Nat
  nextHandle : Nat
  acl : Nat → Nat → Bool
  aclThis : Nat → Bool

/-- Deployment state: `_nextTokenId = 1`, everything else zeroed.  Handle `0`
stands for the all-zero default `euint32`; real handles start at `1`. -/
def initialState : State where
  nextTokenId := 1
  totalMinted := 0
  owners := fun _ => 0
  balances := fun _ => 0
  tokenApprovals := fun _ => 0
  operatorApprovals := fun _ _ => false
  fighterAttributes := fun _ => ⟨0, 0, 0⟩
  ownedTokens := fun _ => []
  ownedTokensIndex := fun _ => 0
  nextHandle := 1
  acl := fun _ _ => false
  aclThis := fun _ => false

/-- `uint32 private constant _TOTAL_ATTRIBUTE_POINTS = 10`. -/
def TOTAL_ATTRIBUTE_POINTS : Nat := 10

/-- `_exists(tokenId)`: `_owners[tokenId] != address(0)`. -/
def _exists (s : State) (tokenId : Nat) : Bool :=
  s.owners tokenId != 0

/-- `_isApprovedOrOwner(spender, tokenId, owner)`. -/
def _isApprovedOrOwner (s : State) (spender : Nat) (tokenId : Nat)
    (owner : Nat) : Bool :=
  spender == owner || s.tokenApprovals tokenId == spender || s.operatorApprovals owner spender

/-- `_validateDistribution(agility, strength, stamina)`: the inputs are
`uint32`, hence always nonnegative; each must be ≤ 10 and they must sum to
exactly 10.  (The sum is computed only after the range check, so the checked
`uint32` addition cannot overflow.) -/
def _validateDistribution (agility strength stamina : Nat) : Except Err Unit :=
  if TOTAL_ATTRIBUTE_POINTS < agility ∨ TOTAL_ATTRIBUTE_POINTS < strength ∨
      TOTAL_ATTRIBUTE_POINTS < stamina then
    .error .AttributeOutOfRange
  else if agility + strength + stamina ≠ TOTAL_ATTRIBUTE_POINTS then
    .error .AttributeTotalMismatch
  else
    .ok ()

/-- `_createAttributes`: validate, then call `FHE.asEuint32` once per
attribute; each call mints a fresh ciphertext handle. -/
def _createAttributes (s : State) (agility strength stamina : Nat) :
    Except Err (FighterAttributes × State) :=
  match _validateDistribution agility strength stamina with
  | .error e => .error e
  | .ok _ =>
    let attrs : FighterAttributes :=
      { agility := s.nextHandle, strength := s.nextHandle + 1, stamina := s.nextHandle + 2 }
    .ok (attrs, { s with nextHandle := s.nextHandle + 3 })

/-- `FHE.allow(handle, viewer)`: append-only insertion into the per-handle ACL. -/
def grantHandle (g : Nat → Nat → Bool) (h : Nat) (viewer : Nat) :
    Nat → Nat → Bool :=
  fun h0 v0 => if h0 = h ∧ v0 = viewer then true else g h0 v0

/-- `_allowContract(attributes)`: `FHE.allowThis` on all three handles. -/
def _allowContract (s : State) (attrs : FighterAttributes) : State :=
  { s with aclThis := fun h =>
      if h = attrs.agility ∨ h = attrs.strength ∨ h = attrs.stamina then true
      else s.aclThis h }

/-- `_allowViewer(attributes, viewer)`: `FHE.allow` on all three handles. -/
def _allowViewer (s : State) (attrs : FighterAttributes) (viewer : Nat) : State :=
  { s with acl :=
      grantHandle (grantHandle (grantHandle s.acl attrs.agility viewer)
        attrs.strength viewer) attrs.stamina viewer }

/-- The `from != address(0)` branch of `_beforeTokenTransfer`: swap-remove
`tokenId` from `_ownedTokens[fromAddr]` and delete its reverse-index entry.
`length - 1` and the array store are checked operations in Solidity 0.8. -/
def removeFromOwned (s : State) (fromAddr : Nat) (tokenId : Nat) :
    Except Err State :=
  let lst := s.ownedTokens fromAddr
  if lst.length = 0 then .error .Panic
  else
    let lastIndex := lst.length - 1
    let tokenIndex := s.ownedTokensIndex tokenId
    if tokenIndex = lastIndex then
      .ok { s with
        ownedTokens := fun a => if a = fromAddr then lst.dropLast else s.ownedTokens a,
        ownedTokensIndex := fun t => if t = tokenId then 0 else s.ownedTokensIndex t }
    else if lst.length ≤ tokenIndex then .error .Panic
    else
      let lastTokenId := lst.getD lastIndex 0
      .ok { s with
        ownedTokens := fun a =>
          if a = fromAddr then (lst.set tokenIndex lastTokenId).dropLast
          else s.ownedTokens a,
        ownedTokensIndex := fun t =>
          if t = tokenId then 0
          else if t = lastTokenId then tokenIndex
          else s.ownedTokensIndex t }

/-- The `to != address(0)` branch of `_beforeTokenTransfer`: record the
position and append the token to the receiver's array. -/
def addToOwned (s : State) (toAddr : Nat) (tokenId : Nat) : State :=
  { s with
    ownedTokensIndex := fun t =>
      if t = tokenId then (s.ownedTokens toAddr).length else s.ownedTokensIndex t,
    ownedTokens := fun a =>
      if a = toAddr then s.ownedTokens toAddr ++ [tokenId] else s.ownedTokens a }

/-- `_beforeTokenTransfer(from, to, tokenId)`: short-circuits when
`from == to`, otherwise removes from `from`'s set and appends to `to`'s. -/
def _beforeTokenTransfer (s : State) (fromAddr toAddr : Nat) (tokenId : Nat) :
    Except Err State :=
  if fromAddr = toAddr then .ok s
  else
    match (if fromAddr ≠ 0 then removeFromOwned s fromAddr tokenId else .ok s) with
    | .error e => .error e
    | .ok s1 => .ok (if toAddr ≠ 0 then addToOwned s1 toAddr tokenId else s1)

/-- `_afterTokenTransfer(from, to, tokenId)`: on a true transfer
(`from ≠ 0 ∧ to ≠ 0`) grant the new owner on the token's current handles. -/
def _afterTokenTransfer (s : State) (fromAddr toAddr : Nat) (tokenId : Nat) : State :=
  if fromAddr ≠ 0 ∧ toAddr ≠ 0 then _allowViewer s (s.fighterAttributes tokenId) toAddr
  else s

/-- `_mint(to, tokenId)` with its `nonZeroAddress(to)` modifier. -/
def _mint (s : State) (toAddr : Nat) (tokenId : Nat) : Except Err State :=
  if toAddr = 0 then .error .InvalidAddress
  else if _exists s tokenId then .error (.TokenAlreadyMinted tokenId)
  else
    match _beforeTokenTransfer s 0 toAddr tokenId with
    | .error e => .error e
    | .ok s1 =>
      let s2 := { s1 with
        balances := fun a => if a = toAddr then s1.balances toAddr + 1 else s1.balances a,
        owners := fun t => if t = tokenId then toAddr else s1.owners t }
      .ok (_afterTokenTransfer s2 0 toAddr tokenId)

/-- `mintFighter(agilityPoints, strengthPoints, staminaPoints)` called by
`sender`.  The source increments `_nextTokenId` and `_totalMinted` before
validating; a validation failure reverts the whole call, so the bumps are
discarded together with everything else (`Except.error` carries no state). -/
def mintFighter (s : State) (sender : Nat)
    (agilityPoints strengthPoints staminaPoints : Nat) :
    Except Err (Nat × State) :=
  let tokenId := s.nextTokenId
  let s0 := { s with nextTokenId := s.nextTokenId + 1, totalMinted := s.totalMinted + 1 }
  match _createAttributes s0 agilityPoints strengthPoints staminaPoints with
  | .error e => .error e
  | .ok (attrs, s1) =>
    let s2 := { s1 with
      fighterAttributes := fun t => if t = tokenId then attrs else s1.fighterAttributes t }
    let s3 := _allowContract s2 attrs
    let s4 := _allowViewer s3 attrs sender
    match _mint s4 sender tokenId with
    | .error e => .error e
    | .ok s5 => .ok (tokenId, s5)

/-- `updateAttributes(tokenId, ...)` called by `sender`: requires the token
to exist and the caller to be owner / approved / operator, then replaces the
three handles and grants the contract and the **current owner** on them. -/
def updateAttributes (s : State) (sender : Nat) (tokenId : Nat)
    (agilityPoints strengthPoints staminaPoints : Nat) : Except Err State :=
  if ¬ _exists s tokenId then .error (.FighterDoesNotExist tokenId)
  else
    let owner := s.owners tokenId
    if ¬ _isApprovedOrOwner s sender tokenId owner then .error .NotAuthorized
    else
      match _createAttributes s agilityPoints strengthPoints staminaPoints with
      | .error e => .error e
      | .ok (attrs, s1) =>
        let s2 := { s1 with
          fighterAttributes := fun t => if t = tokenId then attrs else s1.fighterAttributes t }
        let s3 := _allowContract s2 attrs
        .ok (_allowViewer s3 attrs owner)

/-- `allowViewer(tokenId, viewer)` called by `sender`. -/
def allowViewer (s : State) (sender : Nat) (tokenId : Nat) (viewer : Nat) :
    Except Err State :=
  if ¬ _exists s tokenId then .error (.FighterDoesNotExist tokenId)
  else if viewer = 0 then .error .InvalidAddress
  else
    let owner := s.owners tokenId
    if ¬ _isApprovedOrOwner s sender tokenId owner then .error .NotAuthorized
    else .ok (_allowViewer s (s.fighterAttributes tokenId) viewer)

/-- `approve(to, tokenId)` called by `sender`. -/
def approve (s : State) (sender toAddr : Nat) (tokenId : Nat) : Except Err State :=
  if ¬ _exists s tokenId then .error (.FighterDoesNotExist tokenId)
  else
    let owner := s.owners tokenId
    if sender ≠ owner ∧ ¬ s.operatorApprovals owner sender then .error .NotAuthorized
    else .ok { s with
      tokenApprovals := fun t => if t = tokenId then toAddr else s.tokenApprovals t }

/-- `setApprovalForAll(operator, approved)` called by `sender` (never reverts). -/
def setApprovalForAll (s : State) (sender operatorAddr : Nat) (approved : Bool) : State :=
  { s with operatorApprovals := fun o sp =>
      if o = sender ∧ sp = operatorAddr then approved else s.operatorApprovals o sp }

/-- `_transfer(from, to, tokenId)` called by `sender`; the
`nonZeroAddress(to)` modifier runs before the body (the body's own
`to == address(0)` check is therefore dead code, kept for fidelity).
`_balances[from] -= 1` is a checked subtraction. -/
def _transfer (s : State) (sender fromAddr toAddr : Nat) (tokenId : Nat) :
    Except Err State :=
  if toAddr = 0 then .error .InvalidAddress
  else if ¬ _exists s tokenId then .error (.FighterDoesNotExist tokenId)
  else
    let owner := s.owners tokenId
    if owner ≠ fromAddr then .error .NotAuthorized
    else if ¬ _isApprovedOrOwner s sender tokenId owner then .error .NotAuthorized
    else if toAddr = 0 then .error .InvalidAddress
    else
      match _beforeTokenTransfer s fromAddr toAddr tokenId with
      | .error e => .error e
      | .ok s1 =>
        let s2 := { s1 with
          tokenApprovals := fun t => if t = tokenId then 0 else s1.tokenApprovals t }
        if s2.balances fromAddr = 0 then .error .Panic
        else
          let s3 := { s2 with
            balances := fun a => if a = fromAddr then s2.balances fromAddr - 1 else s2.balances a }
          let s4 := { s3 with
            balances := fun a => if a = toAddr then s3.balances toAddr + 1 else s3.balances a }
          let s5 := { s4 with
            owners := fun t => if t = tokenId then toAddr else s4.owners t }
          .ok (_afterTokenTransfer s5 fromAddr toAddr tokenId)

/-- `transferFrom(from, to, tokenId)` simply forwards to `_transfer`. -/
def transferFrom (s : State) (sender fromAddr toAddr : Nat) (tokenId : Nat) :
    Except Err State :=
  _transfer s sender fromAddr toAddr tokenId

/-- `totalSupply()`. -/
def totalSupply (s : State) : Nat := s.totalMinted

/-- `balanceOf(owner)` with its `nonZeroAddress` modifier. -/
def balanceOf (s : State) (owner : Nat) : Except Err Nat :=
  if owner = 0 then .error .InvalidAddress else .ok (s.balances owner)

/-- `ownerOf(tokenId)` with its `onlyExistingToken` modifier. -/
def ownerOf (s : State) (tokenId : Nat) : Except Err Nat :=
  if ¬ _exists s tokenId then .error (.FighterDoesNotExist tokenId)
  else .ok (s.owners tokenId)

/-- `fightersOf(owner)`: the raw owned-token array. -/
def fightersOf (s : State) (owner : Nat) : List Nat := s.ownedTokens owner

/-- `getEncryptedAttributes(tokenId)`. -/
def getEncryptedAttributes (s : State) (tokenId : Nat) : Except Err FighterAttributes :=
  if ¬ _exists s tokenId then .error (.FighterDoesNotExist tokenId)
  else .ok (s.fighterAttributes tokenId)

/-- `AccessGrantEngine.canRead(handle, requester)`: pure ACL membership,
the precondition the decryption collaborator checks. -/
def canRead (s : State) (h : Nat) (viewer : Nat) : Bool := s.acl h viewer

/-- One state-mutating entry point of the contract, with its caller. -/
inductive Op : Type where
  | mintOp (sender : Nat) (agilityPoints strengthPoints staminaPoints : Nat)
  | updateOp (sender : Nat) (tokenId : Nat)
      (agilityPoints strengthPoints staminaPoints : Nat)
  | allowViewerOp (sender : Nat) (tokenId : Nat) (viewer : Nat)
  | approveOp (sender : Nat) (toAddr : Nat) (tokenId : Nat)
  | setApprovalForAllOp (sender : Nat) (operatorAddr : Nat) (approved : Bool)
  | transferOp (sender : Nat) (fromAddr toAddr : Nat) (tokenId : Nat)

/-- The caller (`msg.sender`) of an operation. -/
def Op.sender : Op → Nat
  | .mintOp a _ _ _ => a
  | .updateOp a _ _ _ _ => a
  | .allowViewerOp a _ _ => a
  | .approveOp a _ _ => a
  | .setApprovalForAllOp a _ _ => a
  | .transferOp a _ _ _ => a

/-- Execute one entry point against the storage. -/
def applyOp (s : State) : Op → Except Err State
  | .mintOp sender a b c => (mintFighter s sender a b c).map (·.2)
  | .updateOp sender t a b c => updateAttributes s sender t a b c
  | .allowViewerOp sender t v => allowViewer s sender t v
  | .approveOp sender toAddr t => approve s sender toAddr t
  | .setApprovalForAllOp sender opr b => .ok (setApprovalForAll s sender opr b)
  | .transferOp sender f t id => _transfer s sender f t id

/-- EVM transaction semantics: a reverting call leaves the storage exactly
as it was. -/
def stepState (s : State) (op : Op) : State :=
  match applyOp s op with
  | .ok s' => s'
  | .error _ => s

/-- States reachable from deployment by successful calls.  `msg.sender` is
never the null address on the EVM, hence the `op.sender ≠ 0` side condition. -/
inductive Reachable : State → Prop where
  | init : Reachable initialState
  | step {s s' : State} {op : Op} :
      Reachable s → op.sender ≠ 0 → applyOp s op = .ok s' → Reachable s'

/-- The state produced by a successful `mintFighter` call. -/
def mintResult (s : State) (sender : Nat) : State where
  nextTokenId := s.nextTokenId + 1
  totalMinted := s.totalMinted + 1
  owners := fun t => if t = s.nextTokenId then sender else s.owners t
  balances := fun a => if a = sender then s.balances sender + 1 else s.balances a
  tokenApprovals := s.tokenApprovals
  operatorApprovals := s.operatorApprovals
  fighterAttributes := fun t =>
    if t = s.nextTokenId then ⟨s.nextHandle, s.nextHandle + 1, s.nextHandle + 2⟩
    else s.fighterAttributes t
  ownedTokens := fun a =>
    if a = sender then s.ownedTokens sender ++ [s.nextTokenId] else s.ownedTokens a
  ownedTokensIndex := fun t =>
    if t = s.nextTokenId then (s.ownedTokens sender).length else s.ownedTokensIndex t
  nextHandle := s.nextHandle + 3
  acl := grantHandle (grantHandle (grantHandle s.acl s.nextHandle sender)
    (s.nextHandle + 1) sender) (s.nextHandle + 2) sender
  aclThis := fun h =>
    if h = s.nextHandle ∨ h = s.nextHandle + 1 ∨ h = s.nextHandle + 2 then true
    else s.aclThis h

/-- The state produced by a successful `updateAttributes` call on `tokenId`:
three fresh handles, granted to the contract and to the token's owner. -/
def updateResult (s : State) (tokenId : Nat) : State where
  nextTokenId := s.nextTokenId
  totalMinted := s.totalMinted
  owners := s.owners
  balances := s.balances
  tokenApprovals := s.tokenApprovals
  operatorApprovals := s.operatorApprovals
  fighterAttributes := fun t =>
    if t = tokenId then ⟨s.nextHandle, s.nextHandle + 1, s.nextHandle + 2⟩
    else s.fighterAttributes t
  ownedTokens := s.ownedTokens
  ownedTokensIndex := s.ownedTokensIndex
  nextHandle := s.nextHandle + 3
  acl := grantHandle (grantHandle (grantHandle s.acl s.nextHandle (s.owners tokenId))
    (s.nextHandle + 1) (s.owners tokenId)) (s.nextHandle + 2) (s.owners tokenId)
  aclThis := fun h =>
    if h = s.nextHandle ∨ h = s.nextHandle + 1 ∨ h = s.nextHandle + 2 then true
    else s.aclThis h

/-- State after `mintFighter(4, 3, 3)` called by address `5` on the fresh
contract: token `1` owned by `5`. -/
def mintedState1 : State := stepState initialState (.mintOp 5 4 3 3)

/-- State after address `5` then runs `updateAttributes(1, 2, 5, 3)`. -/
def updState : State := stepState mintedState1 (.updateOp 5 1 2 5 3)

/-- State after address `5` instead transfers token `1` to address `7`. -/
def transState : State := stepState mintedState1 (.transferOp 5 5 7 1)

/-- State after address `5` instead self-transfers token `1`. -/
def selfTransState : State := stepState mintedState1 (.transferOp 5 5 5 1)

/-- State after address `5` instead grants viewer `7` on token `1`. -/
def viewState : State := stepState mintedState1 (.allowViewerOp 5 1 7)

/-! ## The reachable-state invariant -/

/-- The inductive invariant of the contract storage: token ids are bounded
by the allocator, the per-owner arrays and the reverse index
`_ownedTokensIndex` are synchronized, balances equal array lengths, the
supply counters agree, and the ACL never mentions unallocated handles. -/
structure Inv (s : State) : Prop where
  bound : ∀ t, s.owners t ≠ 0 → 1 ≤ t ∧ t < s.nextTokenId
  counter : s.nextTokenId = s.totalMinted + 1
  memIff : ∀ a, a ≠ 0 → ∀ t, t ∈ s.ownedTokens a ↔ s.owners t = a
  zeroOwned : s.ownedTokens 0 = []
  idxOk : ∀ a i, i < (s.ownedTokens a).length →
    s.ownedTokensIndex ((s.ownedTokens a).getD i 0) = i
  balOk : ∀ a, s.balances a = (s.ownedTokens a).length
  aclFresh : ∀ h v, s.nextHandle ≤ h → s.acl h v = false
  aclThisFresh : ∀ h, s.nextHandle ≤ h → s.aclThis h = false
  handlesLt : ∀ t, s.owners t ≠ 0 →
    (s.fighterAttributes t).agility < s.nextHandle ∧
    (s.fighterAttributes t).strength < s.nextHandle ∧
    (s.fighterAttributes t).stamina < s.nextHandle
  supply : ((Finset.range s.nextTokenId).filter fun t => s.owners t ≠ 0).card = s.totalMinted

/-- `idxOk` restated through `getElem`. -/
theorem Inv.idxOkGet {s : State} (hs : Inv s) (a : Nat) {i : Nat}
    (hi : i < (s.ownedTokens a).length) :
    s.ownedTokensIndex ((s.ownedTokens a)[i]) = i := by
  have h := hs.idxOk a i hi
  rwa [List.getD_eq_getElem _ 0 hi] at h

/-- Positions of distinct occupants of one owner's array are distinct
(the reverse index inverts the array). -/
theorem Inv.getInj {s : State} (hs : Inv s) (a : Nat) {i j : Nat}
    (hi : i < (s.ownedTokens a).length) (hj : j < (s.ownedTokens a).length)
    (h : (s.ownedTokens a)[i] = (s.ownedTokens a)[j]) : i = j := by
  have h1 := hs.idxOkGet a hi
  have h2 := hs.idxOkGet a hj
  rw [h] at h1
  omega

/-- Each owner's array has no duplicates. -/
theorem Inv.nodup {s : State} (hs : Inv s) (a : Nat) : (s.ownedTokens a).Nodup := by
  rw [List.nodup_iff_injective_getElem]
  intro i j hij
  simp only at hij
  exact Fin.ext (hs.getInj a i.2 j.2 hij)

/-- For a token in an owner's array, the stored index is in range and the
array holds the token at exactly that index. -/
theorem Inv.idx_get {s : State} (hs : Inv s) {a : Nat} {t : Nat}
    (ht : t ∈ s.ownedTokens a) :
    s.ownedTokensIndex t < (s.ownedTokens a).length ∧
      (s.ownedTokens a).getD (s.ownedTokensIndex t) 0 = t := by
  obtain ⟨i, hi, hgi⟩ := List.mem_iff_getElem.mp ht
  have hidx := hs.idxOkGet a hi
  rw [hgi] at hidx
  subst hidx
  exact ⟨hi, by rw [List.getD_eq_getElem _ 0 hi]; exact hgi⟩

/-- The deployment state satisfies the invariant. -/
theorem inv_initial : Inv initialState := by
  refine ⟨?_, rfl, ?_, rfl, ?_, ?_, ?_, ?_, ?_, ?_⟩
  · intro t ht; simp [initialState] at ht
  · intro a ha t
    simp only [initialState, List.not_mem_nil, false_iff]
    exact fun h => ha h.symm
  · intro a i hi; simp [initialState] at hi
  · intro a; rfl
  · intro h v _; rfl
  · intro h _; rfl
  · intro t ht; simp [initialState] at ht
  · simp [initialState]

/-- Correctness of the swap-remove step of `_beforeTokenTransfer`: starting
from an invariant-satisfying state, removing an owned token succeeds, only
that owner's array shrinks (losing exactly that token), the reverse index
stays synchronized for every owner's array, and tokens outside the array
keep their index entries. -/
theorem removeFromOwned_spec {s : State} (hs : Inv s) {a : Nat} {tokenId : Nat}
    (ha : a ≠ 0) (hown : s.owners tokenId = a) :
    ∃ s', removeFromOwned s a tokenId = .ok s' ∧
      s'.owners = s.owners ∧
      s'.balances = s.balances ∧
      s'.nextTokenId = s.nextTokenId ∧
      s'.totalMinted = s.totalMinted ∧
      s'.tokenApprovals = s.tokenApprovals ∧
      s'.operatorApprovals = s.operatorApprovals ∧
      s'.fighterAttributes = s.fighterAttributes ∧
      s'.nextHandle = s.nextHandle ∧
      s'.acl = s.acl ∧
      s'.aclThis = s.aclThis ∧
      (∀ b, b ≠ a → s'.ownedTokens b = s.ownedTokens b) ∧
      (∀ t, t ∈ s'.ownedTokens a ↔ t ∈ s.ownedTokens a ∧ t ≠ tokenId) ∧
      (s'.ownedTokens a).length + 1 = (s.ownedTokens a).length ∧
      (∀ b i, i < (s'.ownedTokens b).length →
        s'.ownedTokensIndex ((s'.ownedTokens b).getD i 0) = i) ∧
      (∀ t, t ∉ s.ownedTokens a → s'.ownedTokensIndex t = s.ownedTokensIndex t) := by
  have htmem : tokenId ∈ s.ownedTokens a := (hs.memIff a ha tokenId).mpr hown
  obtain ⟨hilt, hgetD⟩ := hs.idx_get htmem
  have hget : (s.ownedTokens a)[s.ownedTokensIndex tokenId] = tokenId := by
    rw [← List.getD_eq_getElem _ 0 hilt]; exact hgetD
  have hlen0 : ¬ (s.ownedTokens a).length = 0 := by omega
  have hother : ∀ b, b ≠ a → ∀ t, t ∈ s.ownedTokens b → t ≠ tokenId := by
    intro b hb t htb he
    rcases eq_or_ne b 0 with rfl | hb0
    · rw [hs.zeroOwned] at htb; simp at htb
    · have hmem := (hs.memIff b hb0 t).mp htb
      rw [he, hown] at hmem
      exact hb hmem.symm
  by_cases hcase : s.ownedTokensIndex tokenId = (s.ownedTokens a).length - 1
  case pos =>
    refine ⟨{ s with
        ownedTokens := fun b => if b = a then (s.ownedTokens a).dropLast else s.ownedTokens b,
        ownedTokensIndex := fun t => if t = tokenId then 0 else s.ownedTokensIndex t },
      ?_, rfl, rfl, rfl, rfl, rfl, rfl, rfl, rfl, rfl, rfl, ?_, ?_, ?_, ?_, ?_⟩
    · simp only [removeFromOwned, if_neg hlen0, if_pos hcase]
    · intro b hb
      dsimp only
      rw [if_neg hb]
    · intro t
      dsimp only
      rw [if_pos rfl]
      constructor
      · intro h
        obtain ⟨i, hi, hgi⟩ := List.mem_iff_getElem.mp h
        have hi1 : i < (s.ownedTokens a).length - 1 := by
          rw [List.length_dropLast] at hi; exact hi
        have hi2 : i < (s.ownedTokens a).length := by omega
        have hgi2 : (s.ownedTokens a)[i] = t :=
          (List.getElem_dropLast _ _ hi).symm.trans hgi
        refine ⟨hgi2 ▸ List.getElem_mem hi2, ?_⟩
        intro he
        have hidx := hs.idxOkGet a hi2
        rw [hgi2, he] at hidx
        omega
      · rintro ⟨h, hne⟩
        obtain ⟨i, hi, hgi⟩ := List.mem_iff_getElem.mp h
        have hidx := hs.idxOkGet a hi
        rw [hgi] at hidx
        have hine : i ≠ (s.ownedTokens a).length - 1 := by
          intro he
          apply hne
          have hieq : i = s.ownedTokensIndex tokenId := by omega
          subst hieq
          exact hgi.symm.trans hget
        refine List.mem_iff_getElem.mpr ⟨i, ?_, ?_⟩
        · rw [List.length_dropLast]; omega
        · exact (List.getElem_dropLast _ _ _).trans hgi
    · dsimp only
      rw [if_pos rfl, List.length_dropLast]
      omega
    · intro b i hi
      dsimp only at hi ⊢
      by_cases hb : b = a
      · subst hb
        rw [if_pos rfl] at hi ⊢
        have hi1 : i < (s.ownedTokens b).length - 1 := by
          rw [List.length_dropLast] at hi; exact hi
        have hi2 : i < (s.ownedTokens b).length := by omega
        have hLget : (s.ownedTokens b).dropLast.getD i 0 = (s.ownedTokens b)[i] :=
          (List.getD_eq_getElem _ 0 hi).trans (List.getElem_dropLast _ _ hi)
        rw [hLget]
        have hidx := hs.idxOkGet b hi2
        have hne : (s.ownedTokens b)[i] ≠ tokenId := by
          intro he
          rw [he] at hidx
          omega
        rw [if_neg hne]
        exact hidx
      · rw [if_neg hb] at hi ⊢
        have hLget : (s.ownedTokens b).getD i 0 = (s.ownedTokens b)[i] :=
          List.getD_eq_getElem _ 0 hi
        rw [hLget]
        have hne : (s.ownedTokens b)[i] ≠ tokenId :=
          hother b hb _ (List.getElem_mem hi)
        rw [if_neg hne]
        exact hs.idxOkGet b hi
    · intro t ht
      have hne : t ≠ tokenId := fun he => ht (he ▸ htmem)
      dsimp only
      rw [if_neg hne]
  case neg =>
    have hnotle : ¬ (s.ownedTokens a).length ≤ s.ownedTokensIndex tokenId := by omega
    have hlastlt : (s.ownedTokens a).length - 1 < (s.ownedTokens a).length := by omega
    have hlastget : (s.ownedTokens a).getD ((s.ownedTokens a).length - 1) 0 =
        (s.ownedTokens a)[(s.ownedTokens a).length - 1] :=
      List.getD_eq_getElem _ 0 hlastlt
    set lastTok := (s.ownedTokens a).getD ((s.ownedTokens a).length - 1) 0 with hlastdef
    have hlastmem : lastTok ∈ s.ownedTokens a := by
      rw [hlastget]; exact List.getElem_mem hlastlt
    have hidxlast : s.ownedTokensIndex lastTok = (s.ownedTokens a).length - 1 :=
      hs.idxOk a ((s.ownedTokens a).length - 1) hlastlt
    have hlastne : lastTok ≠ tokenId := by
      intro he
      rw [he] at hidxlast
      omega
    refine ⟨{ s with
        ownedTokens := fun b =>
          if b = a then
            ((s.ownedTokens a).set (s.ownedTokensIndex tokenId) lastTok).dropLast
          else s.ownedTokens b,
        ownedTokensIndex := fun t =>
          if t = tokenId then 0
          else if t = lastTok then s.ownedTokensIndex tokenId
          else s.ownedTokensIndex t },
      ?_, rfl, rfl, rfl, rfl, rfl, rfl, rfl, rfl, rfl, rfl, ?_, ?_, ?_, ?_, ?_⟩
    · simp only [removeFromOwned, if_neg hlen0, if_neg hcase, if_neg hnotle]
    · intro b hb
      dsimp only
      rw [if_neg hb]
    · intro t
      dsimp only
      rw [if_pos rfl]
      constructor
      · intro h
        obtain ⟨i, hi, hgi⟩ := List.mem_iff_getElem.mp h
        have hi1 : i < (s.ownedTokens a).length - 1 := by
          rw [List.length_dropLast, List.length_set] at hi; exact hi
        have hi2 : i < (s.ownedTokens a).length := by omega
        have hsetlt : i < ((s.ownedTokens a).set (s.ownedTokensIndex tokenId) lastTok).length := by
          rw [List.length_set]; exact hi2
        have hgi2 : ((s.ownedTokens a).set (s.ownedTokensIndex tokenId) lastTok)[i] = t :=
          (List.getElem_dropLast _ _ hi).symm.trans hgi
        rw [List.getElem_set] at hgi2
        by_cases hti : s.ownedTokensIndex tokenId = i
        · rw [if_pos hti] at hgi2
          exact ⟨hgi2 ▸ hlastmem, hgi2 ▸ hlastne⟩
        · rw [if_neg hti] at hgi2
          refine ⟨hgi2 ▸ List.getElem_mem hi2, ?_⟩
          intro he
          have hidx := hs.idxOkGet a hi2
          rw [hgi2, he] at hidx
          omega
      · rintro ⟨h, hne⟩
        obtain ⟨i, hi, hgi⟩ := List.mem_iff_getElem.mp h
        have hidx := hs.idxOkGet a hi
        rw [hgi] at hidx
        by_cases hilast : i = (s.ownedTokens a).length - 1
        · have hteq : t = lastTok := by
            subst hilast
            exact hgi.symm.trans hlastget.symm
          refine List.mem_iff_getElem.mpr ⟨s.ownedTokensIndex tokenId, ?_, ?_⟩
          · rw [List.length_dropLast, List.length_set]
            omega
          · have hsetlt : s.ownedTokensIndex tokenId <
                ((s.ownedTokens a).set (s.ownedTokensIndex tokenId) lastTok).length := by
              rw [List.length_set]; omega
            refine (List.getElem_dropLast _ _ _).trans ?_
            rw [List.getElem_set, if_pos rfl]
            exact hteq.symm
        · have hi1 : i < (s.ownedTokens a).length - 1 := by omega
          have hine : s.ownedTokensIndex tokenId ≠ i := by
            intro he
            apply hne
            have hieq : i = s.ownedTokensIndex tokenId := he.symm
            subst hieq
            exact hgi.symm.trans hget
          refine List.mem_iff_getElem.mpr ⟨i, ?_, ?_⟩
          · rw [List.length_dropLast, List.length_set]
            omega
          · refine (List.getElem_dropLast _ _ _).trans ?_
            rw [List.getElem_set, if_neg hine]
            exact hgi
    · dsimp only
      rw [if_pos rfl, List.length_dropLast, List.length_set]
      omega
    · intro b i hi
      dsimp only at hi ⊢
      by_cases hb : b = a
      · subst hb
        rw [if_pos rfl] at hi ⊢
        have hi1 : i < (s.ownedTokens b).length - 1 := by
          rw [List.length_dropLast, List.length_set] at hi; exact hi
        have hi2 : i < (s.ownedTokens b).length := by omega
        have hsetlt : i < ((s.ownedTokens b).set (s.ownedTokensIndex tokenId) lastTok).length := by
          rw [List.length_set]; exact hi2
        have hLget : ((s.ownedTokens b).set (s.ownedTokensIndex tokenId) lastTok).dropLast.getD i 0 =
            if s.ownedTokensIndex tokenId = i then lastTok else (s.ownedTokens b)[i] :=
          ((List.getD_eq_getElem _ 0 hi).trans (List.getElem_dropLast _ _ hi)).trans
            (List.getElem_set _)
        rw [hLget]
        by_cases hti : s.ownedTokensIndex tokenId = i
        · rw [if_pos hti, if_neg hlastne, if_pos rfl]
          exact hti
        · rw [if_neg hti]
          have hidx := hs.idxOkGet b hi2
          have hne1 : (s.ownedTokens b)[i] ≠ tokenId := by
            intro he
            rw [he] at hidx
            omega
          have hne2 : (s.ownedTokens b)[i] ≠ lastTok := by
            intro he
            rw [he, hidxlast] at hidx
            omega
          rw [if_neg hne1, if_neg hne2]
          exact hidx
      · rw [if_neg hb] at hi ⊢
        have hLget : (s.ownedTokens b).getD i 0 = (s.ownedTokens b)[i] :=
          List.getD_eq_getElem _ 0 hi
        rw [hLget]
        have hmem := List.getElem_mem hi
        have hne1 : (s.ownedTokens b)[i] ≠ tokenId := hother b hb _ hmem
        have hne2 : (s.ownedTokens b)[i] ≠ lastTok := by
          intro he
          have hmem2 : lastTok ∈ s.ownedTokens b := he ▸ hmem
          rcases eq_or_ne b 0 with rfl | hb0
          · rw [hs.zeroOwned] at hmem2; simp at hmem2
          · have h1 := (hs.memIff b hb0 lastTok).mp hmem2
            have h2 := (hs.memIff a ha lastTok).mp hlastmem
            rw [h2] at h1
            exact hb h1.symm
        rw [if_neg hne1, if_neg hne2]
        exact hs.idxOkGet b hi
    · intro t ht
      have hne1 : t ≠ tokenId := fun he => ht (he ▸ htmem)
      have hne2 : t ≠ lastTok := fun he => ht (he ▸ hlastmem)
      dsimp only
      rw [if_neg hne1, if_neg hne2]

/-- Correctness of the append step of `_beforeTokenTransfer`: provided the
token is in nobody's array, appending it keeps the reverse index
synchronized everywhere and only touches the receiver's array. -/
theorem addToOwned_spec {s : State} (b : Nat) (tokenId : Nat)
    (hidx : ∀ a i, i < (s.ownedTokens a).length →
      s.ownedTokensIndex ((s.ownedTokens a).getD i 0) = i)
    (hnew : ∀ a, tokenId ∉ s.ownedTokens a) :
    (addToOwned s b tokenId).ownedTokens b = s.ownedTokens b ++ [tokenId] ∧
    (∀ a, a ≠ b → (addToOwned s b tokenId).ownedTokens a = s.ownedTokens a) ∧
    (∀ a i, i < ((addToOwned s b tokenId).ownedTokens a).length →
      (addToOwned s b tokenId).ownedTokensIndex
        (((addToOwned s b tokenId).ownedTokens a).getD i 0) = i) ∧
    (∀ t, t ≠ tokenId → (addToOwned s b tokenId).ownedTokensIndex t = s.ownedTokensIndex t) ∧
    (addToOwned s b tokenId).ownedTokensIndex tokenId = (s.ownedTokens b).length := by
  refine ⟨?_, ?_, ?_, ?_, ?_⟩
  · dsimp only [addToOwned]
    rw [if_pos rfl]
  · intro a hab
    dsimp only [addToOwned]
    rw [if_neg hab]
  · intro a i hi
    dsimp only [addToOwned] at hi ⊢
    by_cases hab : a = b
    · subst hab
      rw [if_pos rfl] at hi ⊢
      simp only [List.length_append, List.length_cons, List.length_nil] at hi
      by_cases hilen : i < (s.ownedTokens a).length
      · have hlt : i < (s.ownedTokens a ++ [tokenId]).length := by
          simp only [List.length_append, List.length_cons, List.length_nil]; omega
        have hg : (s.ownedTokens a ++ [tokenId]).getD i 0 = (s.ownedTokens a)[i] :=
          (List.getD_eq_getElem _ 0 hlt).trans (List.getElem_append_left hilen)
        rw [hg]
        have hne : (s.ownedTokens a)[i] ≠ tokenId :=
          fun he => hnew a (he ▸ List.getElem_mem hilen)
        rw [if_neg hne]
        have h := hidx a i hilen
        rwa [List.getD_eq_getElem _ 0 hilen] at h
      · have hieq : i = (s.ownedTokens a).length := by omega
        subst hieq
        have hlt : (s.ownedTokens a).length < (s.ownedTokens a ++ [tokenId]).length := by
          simp only [List.length_append, List.length_cons, List.length_nil]; omega
        have hg : (s.ownedTokens a ++ [tokenId]).getD (s.ownedTokens a).length 0 = tokenId :=
          (List.getD_eq_getElem _ 0 hlt).trans (List.getElem_concat_length _ _ _ rfl _)
        rw [hg, if_pos rfl]
    · rw [if_neg hab] at hi ⊢
      have hg := List.getD_eq_getElem (s.ownedTokens a) 0 hi
      rw [hg]
      have hne : (s.ownedTokens a)[i] ≠ tokenId :=
        fun he => hnew a (he ▸ List.getElem_mem hi)
      rw [if_neg hne]
      have h := hidx a i hi
      rwa [hg] at h
  · intro t ht
    dsimp only [addToOwned]
    rw [if_neg ht]
  · dsimp only [addToOwned]
    rw [if_pos rfl]

/-! ## Closed-form characterizations of the entry points -/

/-- `mintFighter` in closed form: validation decides everything (given that
the allocator's next id is unused, which the reachable-state invariant
guarantees); on success the new state is `mintResult`. -/
theorem mintFighter_eq (s : State) (sender : Nat) (a b c : Nat) :
    mintFighter s sender a b c =
      match _validateDistribution a b c with
      | .error e => .error e
      | .ok _ =>
        if sender = 0 then .error .InvalidAddress
        else if s.owners s.nextTokenId ≠ 0 then .error (.TokenAlreadyMinted s.nextTokenId)
        else .ok (s.nextTokenId, mintResult s sender) := by
  cases hv : _validateDistribution a b c with
  | error e =>
    simp [mintFighter, _createAttributes, hv]
  | ok u =>
    by_cases hsz : sender = 0
    · simp [mintFighter, _createAttributes, hv, _mint, hsz]
    · have hsz' : (0 : Nat) ≠ sender := Ne.symm hsz
      by_cases hex : s.owners s.nextTokenId = 0
      · simp [mintFighter, _createAttributes, hv, _mint, _exists, hex, hsz, hsz',
          _beforeTokenTransfer, addToOwned, _afterTokenTransfer, _allowContract,
          _allowViewer, mintResult]
      · simp [mintFighter, _createAttributes, hv, _mint, _exists, hex, hsz, hsz',
          _allowContract, _allowViewer]

/-- `updateAttributes` in closed form. -/
theorem updateAttributes_eq (s : State) (sender : Nat) (tokenId : Nat) (a b c : Nat) :
    updateAttributes s sender tokenId a b c =
      if ¬ _exists s tokenId then .error (.FighterDoesNotExist tokenId)
      else if ¬ _isApprovedOrOwner s sender tokenId (s.owners tokenId) then
        .error .NotAuthorized
      else
        match _validateDistribution a b c with
        | .error e => .error e
        | .ok _ => .ok (updateResult s tokenId) := by
  by_cases hex : _exists s tokenId
  · by_cases hauth : _isApprovedOrOwner s sender tokenId (s.owners tokenId)
    · cases hv : _validateDistribution a b c with
      | error e => simp [updateAttributes, _createAttributes, hv, hex, hauth]
      | ok u =>
        simp [updateAttributes, _createAttributes, hv, hex, hauth, _allowContract,
          _allowViewer, updateResult]
    · simp [updateAttributes, hex, hauth]
  · simp [updateAttributes, hex]

/-- Full description of a successful `_transfer` from an
invariant-satisfying state: guards that must have passed, the exact effect
on every storage component, with the owned-token arrays split into the
self-transfer short-circuit and the genuine-move case. -/
theorem transfer_spec {s : State} {sender fromAddr toAddr : Nat} {tokenId : Nat}
    {s' : State} (hs : Inv s)
    (h : _transfer s sender fromAddr toAddr tokenId = .ok s') :
    toAddr ≠ 0 ∧ fromAddr ≠ 0 ∧ s.owners tokenId = fromAddr ∧
    _isApprovedOrOwner s sender tokenId fromAddr = true ∧
    s'.owners = (fun t => if t = tokenId then toAddr else s.owners t) ∧
    s'.tokenApprovals = (fun t => if t = tokenId then 0 else s.tokenApprovals t) ∧
    s'.operatorApprovals = s.operatorApprovals ∧
    s'.fighterAttributes = s.fighterAttributes ∧
    s'.nextTokenId = s.nextTokenId ∧
    s'.totalMinted = s.totalMinted ∧
    s'.nextHandle = s.nextHandle ∧
    s'.aclThis = s.aclThis ∧
    s'.acl = grantHandle (grantHandle (grantHandle s.acl
        (s.fighterAttributes tokenId).agility toAddr)
        (s.fighterAttributes tokenId).strength toAddr)
        (s.fighterAttributes tokenId).stamina toAddr ∧
    (fromAddr = toAddr →
      s'.ownedTokens = s.ownedTokens ∧ s'.ownedTokensIndex = s.ownedTokensIndex ∧
      s'.balances = s.balances) ∧
    (fromAddr ≠ toAddr →
      (∀ t, t ∈ s'.ownedTokens fromAddr ↔ t ∈ s.ownedTokens fromAddr ∧ t ≠ tokenId) ∧
      s'.ownedTokens toAddr = s.ownedTokens toAddr ++ [tokenId] ∧
      (∀ b, b ≠ fromAddr → b ≠ toAddr → s'.ownedTokens b = s.ownedTokens b) ∧
      (∀ b i, i < (s'.ownedTokens b).length →
        s'.ownedTokensIndex ((s'.ownedTokens b).getD i 0) = i) ∧
      (s'.ownedTokens fromAddr).length + 1 = (s.ownedTokens fromAddr).length ∧
      s'.balances toAddr = s.balances toAddr + 1 ∧
      s'.balances fromAddr = s.balances fromAddr - 1 ∧
      (∀ a, a ≠ fromAddr → a ≠ toAddr → s'.balances a = s.balances a)) := by
  simp only [_transfer] at h
  split at h
  next h0 => exact Except.noConfusion h
  next h0 =>
  split at h
  next hnex => exact Except.noConfusion h
  next hnex =>
  split at h
  next hown' => exact Except.noConfusion h
  next hown' =>
  split at h
  next hnauth => exact Except.noConfusion h
  next hnauth =>
  split at h
  next e heq => exact Except.noConfusion h
  next s1 heq =>
  split at h
  next hbal0 => exact Except.noConfusion h
  next hbal0 =>
  rw [Except.ok.injEq] at h
  subst h
  have hex : _exists s tokenId = true := not_not.mp hnex
  have hown : s.owners tokenId = fromAddr := not_ne_iff.mp hown'
  have hf0 : fromAddr ≠ 0 := by
    simp only [_exists, bne_iff_ne, ne_eq] at hex
    rw [hown] at hex
    exact hex
  have hauth : _isApprovedOrOwner s sender tokenId fromAddr = true := by
    have := not_not.mp hnauth
    rwa [hown] at this
  refine ⟨h0, hf0, hown, hauth, ?_⟩
  unfold _afterTokenTransfer
  rw [if_pos (show fromAddr ≠ 0 ∧ toAddr ≠ 0 from ⟨hf0, h0⟩)]
  by_cases hft : fromAddr = toAddr
  · -- self-transfer: `_beforeTokenTransfer` short-circuits
    subst hft
    simp [_beforeTokenTransfer] at heq
    subst heq
    refine ⟨rfl, rfl, rfl, rfl, rfl, rfl, rfl, rfl, rfl, ?_, ?_⟩
    · intro _
      refine ⟨rfl, rfl, ?_⟩
      funext a
      dsimp only [_allowViewer]
      by_cases haf : a = fromAddr
      · subst haf
        rw [if_pos rfl, if_pos rfl]
        omega
      · rw [if_neg haf, if_neg haf]
    · intro hne
      exact absurd rfl hne
  · -- genuine move: swap-remove from the sender, append to the receiver
    simp only [_beforeTokenTransfer, if_neg hft, if_pos hf0] at heq
    obtain ⟨sR, hRe, hROw, hRBal, hRNext, hRMint, hRAppr, hROp, hRAttr, hRHandle,
      hRAcl, hRAclT, hROTb, hRMem, hRLen, hRIdx, hRIdxU⟩ := removeFromOwned_spec hs hf0 hown
    rw [hRe] at heq
    simp only [if_pos h0, Except.ok.injEq] at heq
    subst heq
    have hnew : ∀ a, tokenId ∉ sR.ownedTokens a := by
      intro a hmem
      by_cases hafrom : a = fromAddr
      · subst hafrom
        exact ((hRMem tokenId).mp hmem).2 rfl
      · rw [hROTb a hafrom] at hmem
        rcases eq_or_ne a 0 with rfl | ha0
        · rw [hs.zeroOwned] at hmem; simp at hmem
        · have := (hs.memIff a ha0 tokenId).mp hmem
          rw [hown] at this
          exact hafrom this.symm
    obtain ⟨hAT, hAO, hAIdx, hAIdxU, hAIdxT⟩ := addToOwned_spec toAddr tokenId hRIdx hnew
    have htf : toAddr ≠ fromAddr := Ne.symm hft
    refine ⟨?_, ?_, ?_, ?_, ?_, ?_, ?_, ?_, ?_, ?_, ?_⟩
    · funext t
      dsimp only [_allowViewer, addToOwned]
      rw [hROw]
    · funext t
      dsimp only [_allowViewer, addToOwned]
      rw [hRAppr]
    · dsimp only [_allowViewer, addToOwned]
      exact hROp
    · dsimp only [_allowViewer, addToOwned]
      exact hRAttr
    · dsimp only [_allowViewer, addToOwned]
      exact hRNext
    · dsimp only [_allowViewer, addToOwned]
      exact hRMint
    · dsimp only [_allowViewer, addToOwned]
      exact hRHandle
    · dsimp only [_allowViewer, addToOwned]
      exact hRAclT
    · dsimp only [_allowViewer, addToOwned]
      rw [hRAcl, hRAttr]
    · intro hft'
      exact absurd hft' hft
    · intro _
      refine ⟨?_, ?_, ?_, ?_, ?_, ?_, ?_, ?_⟩
      · intro t
        dsimp only [_allowViewer, addToOwned]
        rw [if_neg hft]
        exact hRMem t
      · dsimp only [_allowViewer, addToOwned]
        rw [if_pos rfl, hROTb toAddr htf]
      · intro b hbf hbt
        dsimp only [_allowViewer, addToOwned]
        rw [if_neg hbt, hROTb b hbf]
      · intro b i hi
        dsimp only [_allowViewer, addToOwned] at hi ⊢
        exact hAIdx b i hi
      · dsimp only [_allowViewer, addToOwned]
        rw [if_neg hft]
        exact hRLen
      · dsimp only [_allowViewer, addToOwned]
        rw [if_pos rfl, if_neg htf, hRBal]
      · dsimp only [_allowViewer, addToOwned]
        rw [if_neg hft, if_pos rfl, hRBal]
      · intro a haf hat
        dsimp only [_allowViewer, addToOwned]
        rw [if_neg hat, if_neg haf, hRBal]

/-! ## Invariant preservation -/

/-- What a successful `mintFighter` implies: validation passed, the caller
is not the null address, the allocated id was unused, the returned id is
the allocator value and the new state is `mintResult`. -/
theorem mint_ok_elim {s : State} {sender : Nat} {a b c : Nat} {tid : Nat}
    {s' : State} (h : mintFighter s sender a b c = .ok (tid, s')) :
    _validateDistribution a b c = .ok () ∧ sender ≠ 0 ∧ s.owners s.nextTokenId = 0 ∧
    tid = s.nextTokenId ∧ s' = mintResult s sender := by
  rw [mintFighter_eq] at h
  split at h
  next e heq => exact Except.noConfusion h
  next u heq =>
  split at h
  next hsz => exact Except.noConfusion h
  next hsz =>
  split at h
  next hne => exact Except.noConfusion h
  next hne =>
  rw [Except.ok.injEq, Prod.mk.injEq] at h
  exact ⟨heq, hsz, not_ne_iff.mp hne, h.1.symm, h.2.symm⟩

/-- `mintResult` preserves the invariant. -/
theorem inv_mintResult {s : State} (hs : Inv s) {sender : Nat}
    (hsz : sender ≠ 0) (hfree : s.owners s.nextTokenId = 0) :
    Inv (mintResult s sender) := by
  have hone : 1 ≤ s.nextTokenId := by
    have := hs.counter; omega
  have hnew : ∀ a, s.nextTokenId ∉ s.ownedTokens a := by
    intro a hmem
    rcases eq_or_ne a 0 with rfl | ha0
    · rw [hs.zeroOwned] at hmem; simp at hmem
    · have := (hs.memIff a ha0 s.nextTokenId).mp hmem
      rw [hfree] at this
      exact ha0 this.symm
  obtain ⟨hAT, hAO, hAIdx, hAIdxU, hAIdxT⟩ := addToOwned_spec sender s.nextTokenId hs.idxOk hnew
  refine ⟨?_, ?_, ?_, ?_, ?_, ?_, ?_, ?_, ?_, ?_⟩
  · intro t ht
    dsimp only [mintResult] at ht ⊢
    by_cases htn : t = s.nextTokenId
    · subst htn; omega
    · rw [if_neg htn] at ht
      have := hs.bound t ht
      omega
  · dsimp only [mintResult]
    have := hs.counter
    omega
  · intro a ha t
    dsimp only [mintResult]
    by_cases has : a = sender
    · subst has
      by_cases htn : t = s.nextTokenId
      · subst htn
        rw [if_pos rfl, if_pos rfl]
        simp
      · rw [if_pos rfl, if_neg htn]
        simp only [List.mem_append, List.mem_singleton, htn, or_false]
        exact hs.memIff a ha t
    · rw [if_neg has]
      by_cases htn : t = s.nextTokenId
      · subst htn
        rw [if_pos rfl]
        constructor
        · intro hmem; exact absurd hmem (hnew a)
        · intro heq; exact absurd heq.symm has
      · rw [if_neg htn]
        exact hs.memIff a ha t
  · dsimp only [mintResult]
    rw [if_neg (Ne.symm hsz)]
    exact hs.zeroOwned
  · intro a i hi
    exact hAIdx a i hi
  · intro a
    dsimp only [mintResult]
    by_cases has : a = sender
    · subst has
      rw [if_pos rfl, if_pos rfl, List.length_append, List.length_cons, List.length_nil,
        hs.balOk a]
    · rw [if_neg has, if_neg has]
      exact hs.balOk a
  · intro h v hh
    dsimp only [mintResult, grantHandle] at hh ⊢
    rw [if_neg (by rintro ⟨rfl, -⟩; omega), if_neg (by rintro ⟨rfl, -⟩; omega),
      if_neg (by rintro ⟨rfl, -⟩; omega)]
    exact hs.aclFresh h v (by omega)
  · intro h hh
    dsimp only [mintResult] at hh ⊢
    rw [if_neg (by rintro (rfl | rfl | rfl) <;> omega)]
    exact hs.aclThisFresh h (by omega)
  · intro t ht
    dsimp only [mintResult] at ht ⊢
    by_cases htn : t = s.nextTokenId
    · subst htn
      rw [if_pos rfl]
      refine ⟨?_, ?_, ?_⟩ <;> · dsimp only; omega
    · rw [if_neg htn] at ht ⊢
      have := hs.handlesLt t ht
      omega
  · dsimp only [mintResult]
    have hpred : ∀ t ∈ Finset.range s.nextTokenId,
        ((if t = s.nextTokenId then sender else s.owners t) ≠ 0) ↔ (s.owners t ≠ 0) := by
      intro t ht
      rw [Finset.mem_range] at ht
      rw [if_neg (by omega)]
    rw [Finset.range_succ, Finset.filter_insert, if_pos (by simp [hsz]),
      Finset.card_insert_of_not_mem (by simp), Finset.filter_congr hpred, hs.supply]

/-- `mintFighter` preserves the invariant. -/
theorem inv_mint {s : State} {sender : Nat} {a b c : Nat} {tid : Nat}
    {s' : State} (hs : Inv s) (h : mintFighter s sender a b c = .ok (tid, s')) :
    Inv s' := by
  obtain ⟨_, hsz, hfree, _, hres⟩ := mint_ok_elim h
  subst hres
  exact inv_mintResult hs hsz hfree

/-- What a successful `updateAttributes` implies. -/
theorem update_ok_elim {s : State} {sender : Nat} {tokenId : Nat} {a b c : Nat}
    {s' : State} (h : updateAttributes s sender tokenId a b c = .ok s') :
    _exists s tokenId = true ∧
    _isApprovedOrOwner s sender tokenId (s.owners tokenId) = true ∧
    _validateDistribution a b c = .ok () ∧ s' = updateResult s tokenId := by
  rw [updateAttributes_eq] at h
  split at h
  next hnex => exact Except.noConfusion h
  next hnex =>
  split at h
  next hnauth => exact Except.noConfusion h
  next hnauth =>
  split at h
  next e heq => exact Except.noConfusion h
  next u heq =>
  rw [Except.ok.injEq] at h
  exact ⟨not_not.mp hnex, not_not.mp hnauth, heq, h.symm⟩

/-- `updateResult` preserves the invariant. -/
theorem inv_updateResult {s : State} (hs : Inv s) {tokenId : Nat}
    (hex : s.owners tokenId ≠ 0) : Inv (updateResult s tokenId) := by
  refine ⟨hs.bound, hs.counter, hs.memIff, hs.zeroOwned, hs.idxOk, hs.balOk,
    ?_, ?_, ?_, hs.supply⟩
  · intro h v hh
    dsimp only [updateResult, grantHandle] at hh ⊢
    rw [if_neg (by rintro ⟨rfl, -⟩; omega), if_neg (by rintro ⟨rfl, -⟩; omega),
      if_neg (by rintro ⟨rfl, -⟩; omega)]
    exact hs.aclFresh h v (by omega)
  · intro h hh
    dsimp only [updateResult] at hh ⊢
    rw [if_neg (by rintro (rfl | rfl | rfl) <;> omega)]
    exact hs.aclThisFresh h (by omega)
  · intro t ht
    dsimp only [updateResult] at ht ⊢
    by_cases htn : t = tokenId
    · subst htn
      rw [if_pos rfl]
      refine ⟨?_, ?_, ?_⟩ <;> · dsimp only; omega
    · rw [if_neg htn]
      have := hs.handlesLt t ht
      omega

/-- `updateAttributes` preserves the invariant. -/
theorem inv_update {s : State} {sender : Nat} {tokenId : Nat} {a b c : Nat}
    {s' : State} (hs : Inv s) (h : updateAttributes s sender tokenId a b c = .ok s') :
    Inv s' := by
  obtain ⟨hex, _, _, hres⟩ := update_ok_elim h
  subst hres
  simp only [_exists, bne_iff_ne, ne_eq] at hex
  exact inv_updateResult hs hex

/-- What a successful `allowViewer` implies. -/
theorem allowViewer_ok_elim {s : State} {sender : Nat} {tokenId : Nat}
    {viewer : Nat} {s' : State} (h : allowViewer s sender tokenId viewer = .ok s') :
    _exists s tokenId = true ∧ viewer ≠ 0 ∧
    _isApprovedOrOwner s sender tokenId (s.owners tokenId) = true ∧
    s' = _allowViewer s (s.fighterAttributes tokenId) viewer := by
  simp only [allowViewer] at h
  split at h
  next hnex => exact Except.noConfusion h
  next hnex =>
  split at h
  next hv0 => exact Except.noConfusion h
  next hv0 =>
  split at h
  next hnauth => exact Except.noConfusion h
  next hnauth =>
  rw [Except.ok.injEq] at h
  exact ⟨not_not.mp hnex, hv0, not_not.mp hnauth, h.symm⟩

/-- `allowViewer` preserves the invariant. -/
theorem inv_allowViewer {s : State} {sender : Nat} {tokenId : Nat}
    {viewer : Nat} {s' : State} (hs : Inv s)
    (h : allowViewer s sender tokenId viewer = .ok s') : Inv s' := by
  obtain ⟨hex, _, _, hres⟩ := allowViewer_ok_elim h
  subst hres
  simp only [_exists, bne_iff_ne, ne_eq] at hex
  obtain ⟨hlt1, hlt2, hlt3⟩ := hs.handlesLt tokenId hex
  refine ⟨hs.bound, hs.counter, hs.memIff, hs.zeroOwned, hs.idxOk, hs.balOk,
    ?_, hs.aclThisFresh, hs.handlesLt, hs.supply⟩
  · intro h v hh
    dsimp only [_allowViewer] at hh
    dsimp only [_allowViewer, grantHandle]
    rw [if_neg (by rintro ⟨rfl, -⟩; omega), if_neg (by rintro ⟨rfl, -⟩; omega),
      if_neg (by rintro ⟨rfl, -⟩; omega)]
    exact hs.aclFresh h v hh

/-- `approve` preserves the invariant (it only writes `_tokenApprovals`). -/
theorem inv_approve {s : State} {sender toAddr : Nat} {tokenId : Nat}
    {s' : State} (hs : Inv s) (h : approve s sender toAddr tokenId = .ok s') : Inv s' := by
  simp only [approve] at h
  split at h
  next hnex => exact Except.noConfusion h
  next hnex =>
  split at h
  next hnauth => exact Except.noConfusion h
  next hnauth =>
  rw [Except.ok.injEq] at h
  subst h
  exact ⟨hs.bound, hs.counter, hs.memIff, hs.zeroOwned, hs.idxOk, hs.balOk,
    hs.aclFresh, hs.aclThisFresh, hs.handlesLt, hs.supply⟩

/-- `setApprovalForAll` preserves the invariant (it only writes
`_operatorApprovals`). -/
theorem inv_setApprovalForAll {s : State} {sender operatorAddr : Nat} {approved : Bool}
    (hs : Inv s) : Inv (setApprovalForAll s sender operatorAddr approved) :=
  ⟨hs.bound, hs.counter, hs.memIff, hs.zeroOwned, hs.idxOk, hs.balOk,
    hs.aclFresh, hs.aclThisFresh, hs.handlesLt, hs.supply⟩

/-- `_transfer` preserves the invariant. -/
theorem inv_transfer {s : State} {sender fromAddr toAddr tokenId : Nat}
    {s' : State} (hs : Inv s) (h : _transfer s sender fromAddr toAddr tokenId = .ok s') :
    Inv s' := by
  obtain ⟨ht0, hf0, hown, hauth, hOw, hAppr, hOp, hAttr, hNext, hMint, hHandle, hAclT,
    hAcl, hself, hmove⟩ := transfer_spec hs h
  have hfex : s.owners tokenId ≠ 0 := by rw [hown]; exact hf0
  refine ⟨?_, ?_, ?_, ?_, ?_, ?_, ?_, ?_, ?_, ?_⟩
  · intro t ht
    simp only [hOw] at ht
    rw [hNext]
    by_cases htn : t = tokenId
    · subst htn
      exact hs.bound _ hfex
    · rw [if_neg htn] at ht
      exact hs.bound t ht
  · rw [hNext, hMint]
    exact hs.counter
  · intro a ha t
    simp only [hOw]
    by_cases hft : fromAddr = toAddr
    · obtain ⟨hL, _, _⟩ := hself hft
      rw [hL]
      by_cases htn : t = tokenId
      · rw [if_pos htn, ← hft, ← hown, htn]
        exact hs.memIff a ha tokenId
      · rw [if_neg htn]
        exact hs.memIff a ha t
    · obtain ⟨hMemF, hLTo, hLOther, _, _, _, _, _⟩ := hmove hft
      by_cases haf : a = fromAddr
      · subst haf
        rw [hMemF t]
        constructor
        · rintro ⟨hmem, hne⟩
          rw [if_neg hne]
          exact (hs.memIff a ha t).mp hmem
        · intro heq
          by_cases htn : t = tokenId
          · rw [if_pos htn] at heq
            exact absurd heq.symm hft
          · rw [if_neg htn] at heq
            exact ⟨(hs.memIff a ha t).mpr heq, htn⟩
      · by_cases hat : a = toAddr
        · subst hat
          rw [hLTo]
          simp only [List.mem_append, List.mem_singleton]
          constructor
          · rintro (hmem | rfl)
            · have heq := (hs.memIff a ha t).mp hmem
              have htn : t ≠ tokenId := by
                intro he
                rw [he, hown] at heq
                exact haf heq.symm
              rw [if_neg htn]
              exact heq
            · rw [if_pos rfl]
          · intro heq
            by_cases htn : t = tokenId
            · exact Or.inr htn
            · rw [if_neg htn] at heq
              exact Or.inl ((hs.memIff a ha t).mpr heq)
        · rw [hLOther a haf hat]
          constructor
          · intro hmem
            have heq := (hs.memIff a ha t).mp hmem
            have htn : t ≠ tokenId := by
              intro he
              rw [he, hown] at heq
              exact haf heq.symm
            rw [if_neg htn]
            exact heq
          · intro heq
            by_cases htn : t = tokenId
            · rw [if_pos htn] at heq
              exact absurd heq.symm hat
            · rw [if_neg htn] at heq
              exact (hs.memIff a ha t).mpr heq
  · by_cases hft : fromAddr = toAddr
    · rw [(hself hft).1]
      exact hs.zeroOwned
    · rw [(hmove hft).2.2.1 0 (Ne.symm hf0) (Ne.symm ht0)]
      exact hs.zeroOwned
  · by_cases hft : fromAddr = toAddr
    · obtain ⟨hL, hI, _⟩ := hself hft
      rw [hL, hI]
      exact hs.idxOk
    · exact (hmove hft).2.2.2.1
  · intro a
    by_cases hft : fromAddr = toAddr
    · obtain ⟨hL, _, hB⟩ := hself hft
      rw [hL, hB]
      exact hs.balOk a
    · obtain ⟨hMemF, hLTo, hLOther, _, hLenF, hBTo, hBFrom, hBOther⟩ := hmove hft
      by_cases haf : a = fromAddr
      · subst haf
        rw [hBFrom, hs.balOk a]
        omega
      · by_cases hat : a = toAddr
        · subst hat
          rw [hBTo, hLTo, hs.balOk a]
          simp
        · rw [hBOther a haf hat, hLOther a haf hat]
          exact hs.balOk a
  · intro h v hh
    rw [hAcl]
    rw [hHandle] at hh
    obtain ⟨hlt1, hlt2, hlt3⟩ := hs.handlesLt tokenId hfex
    dsimp only [grantHandle]
    rw [if_neg (by rintro ⟨rfl, -⟩; omega), if_neg (by rintro ⟨rfl, -⟩; omega),
      if_neg (by rintro ⟨rfl, -⟩; omega)]
    exact hs.aclFresh h v hh
  · intro h hh
    rw [hAclT]
    rw [hHandle] at hh
    exact hs.aclThisFresh h hh
  · intro t ht
    simp only [hOw] at ht
    rw [hAttr, hHandle]
    by_cases htn : t = tokenId
    · subst htn
      exact hs.handlesLt _ hfex
    · rw [if_neg htn] at ht
      exact hs.handlesLt t ht
  · rw [hNext, hMint]
    have hpred : ∀ t ∈ Finset.range s.nextTokenId,
        (s'.owners t ≠ 0) ↔ (s.owners t ≠ 0) := by
      intro t _
      simp only [hOw]
      by_cases htn : t = tokenId
      · rw [if_pos htn, htn]
        exact ⟨fun _ => hfex, fun _ => ht0⟩
      · rw [if_neg htn]
    rw [Finset.filter_congr hpred]
    exact hs.supply

/-- Every entry point preserves the invariant. -/
theorem applyOp_inv {s s' : State} {op : Op} (hs : Inv s) (h : applyOp s op = .ok s') :
    Inv s' := by
  cases op with
  | mintOp sender a b c =>
    simp only [applyOp, Except.map] at h
    split at h
    next p heq => exact Except.noConfusion h
    next p heq =>
      rw [Except.ok.injEq] at h
      subst h
      exact inv_mint hs heq
  | updateOp sender t a b c => exact inv_update hs h
  | allowViewerOp sender t v => exact inv_allowViewer hs h
  | approveOp sender toAddr t => exact inv_approve hs h
  | setApprovalForAllOp sender opr b =>
    simp only [applyOp, Except.ok.injEq] at h
    subst h
    exact inv_setApprovalForAll hs
  | transferOp sender f t id => exact inv_transfer hs h

/-- Every reachable state satisfies the invariant. -/
theorem reachable_inv {s : State} (h : Reachable s) : Inv s := by
  induction h with
  | init => exact inv_initial
  | step hr hsz hstep ih => exact applyOp_inv ih hstep

/-! ## Helper lemmas for the claim theorems -/

/-- The validation predicate in arithmetic form. -/
theorem validate_ok_iff (a b c : Nat) :
    _validateDistribution a b c = .ok () ↔ (a ≤ 10 ∧ b ≤ 10 ∧ c ≤ 10 ∧ a + b + c = 10) := by
  unfold _validateDistribution TOTAL_ATTRIBUTE_POINTS
  split_ifs with h1 h2
  · exact iff_of_false (by simp) (by omega)
  · exact iff_of_false (by simp) (by omega)
  · exact iff_of_true rfl (by omega)

/-- Out-of-range inputs produce `AttributeOutOfRange`. -/
theorem validate_oor {a b c : Nat} (h : 10 < a ∨ 10 < b ∨ 10 < c) :
    _validateDistribution a b c = .error .AttributeOutOfRange := by
  unfold _validateDistribution TOTAL_ATTRIBUTE_POINTS
  rw [if_pos h]

/-- In-range inputs with a wrong sum produce `AttributeTotalMismatch`. -/
theorem validate_mismatch {a b c : Nat} (h1 : a ≤ 10) (h2 : b ≤ 10) (h3 : c ≤ 10)
    (h4 : a + b + c ≠ 10) :
    _validateDistribution a b c = .error .AttributeTotalMismatch := by
  unfold _validateDistribution TOTAL_ATTRIBUTE_POINTS
  rw [if_neg (by omega), if_pos h4]

/-- The only validation errors are the two attribute errors. -/
theorem validate_error_cases {a b c : Nat} {e : Err}
    (h : _validateDistribution a b c = .error e) :
    e = .AttributeOutOfRange ∨ e = .AttributeTotalMismatch := by
  unfold _validateDistribution TOTAL_ATTRIBUTE_POINTS at h
  split_ifs at h
  · exact Or.inl (Except.error.inj h).symm
  · exact Or.inr (Except.error.inj h).symm

/-- In an invariant-satisfying state the allocator's next id is unowned:
the `TokenAlreadyMinted` check can never fire. -/
theorem Inv.freeId {s : State} (hs : Inv s) : s.owners s.nextTokenId = 0 := by
  by_contra h
  have := hs.bound _ h
  omega

/-- Granting is append-only: an existing grant survives. -/
theorem grantHandle_mono {g : Nat → Nat → Bool} {h v : Nat} (h0 v0 : Nat)
    (hg : g h v = true) : grantHandle g h0 v0 h v = true := by
  dsimp only [grantHandle]
  by_cases hc : h = h0 ∧ v = v0
  · rw [if_pos hc]
  · rw [if_neg hc]; exact hg

/-- A grant makes the pair readable. -/
theorem grantHandle_self (g : Nat → Nat → Bool) (h v : Nat) :
    grantHandle g h v h v = true := by
  dsimp only [grantHandle]
  rw [if_pos ⟨rfl, rfl⟩]

/-- Exact ACL contents after the triple grant issued by `_allowViewer`. -/
theorem grantHandle_triple_iff (g : Nat → Nat → Bool) (attrs : FighterAttributes)
    (v h0 v0 : Nat) :
    (grantHandle (grantHandle (grantHandle g attrs.agility v) attrs.strength v)
      attrs.stamina v h0 v0 = true) ↔
    (g h0 v0 = true ∨ (v0 = v ∧ (h0 = attrs.agility ∨ h0 = attrs.strength ∨
      h0 = attrs.stamina))) := by
  dsimp only [grantHandle]
  by_cases h1 : h0 = attrs.stamina ∧ v0 = v
  · rw [if_pos h1]
    simp [h1.1, h1.2]
  · rw [if_neg h1]
    by_cases h2 : h0 = attrs.strength ∧ v0 = v
    · rw [if_pos h2]
      simp [h2.1, h2.2]
    · rw [if_neg h2]
      by_cases h3 : h0 = attrs.agility ∧ v0 = v
      · rw [if_pos h3]
        simp [h3.1, h3.2]
      · rw [if_neg h3]
        constructor
        · exact Or.inl
        · rintro (hacl | ⟨rfl, (rfl | rfl | rfl)⟩)
          · exact hacl
          · exact absurd ⟨rfl, rfl⟩ h3
          · exact absurd ⟨rfl, rfl⟩ h2
          · exact absurd ⟨rfl, rfl⟩ h1

/-- All three handles of `_allowViewer`'s triple grant are readable by the
viewer afterwards. -/
theorem grantHandle_triple_self (g : Nat → Nat → Bool) (attrs : FighterAttributes)
    (v : Nat) :
    (grantHandle (grantHandle (grantHandle g attrs.agility v) attrs.strength v)
        attrs.stamina v attrs.agility v = true) ∧
    (grantHandle (grantHandle (grantHandle g attrs.agility v) attrs.strength v)
        attrs.stamina v attrs.strength v = true) ∧
    (grantHandle (grantHandle (grantHandle g attrs.agility v) attrs.strength v)
        attrs.stamina v attrs.stamina v = true) :=
  ⟨(grantHandle_triple_iff g attrs v _ v).mpr (Or.inr ⟨rfl, Or.inl rfl⟩),
   (grantHandle_triple_iff g attrs v _ v).mpr (Or.inr ⟨rfl, Or.inr (Or.inl rfl)⟩),
   (grantHandle_triple_iff g attrs v _ v).mpr (Or.inr ⟨rfl, Or.inr (Or.inr rfl)⟩)⟩

/-- The allocator value never decreases under any successful entry point. -/
theorem applyOp_nextTokenId {s s' : State} {op : Op} (hs : Inv s)
    (h : applyOp s op = .ok s') : s.nextTokenId ≤ s'.nextTokenId := by
  cases op with
  | mintOp sender a b c =>
    simp only [applyOp, Except.map] at h
    split at h
    next p heq => exact Except.noConfusion h
    next p heq =>
      rw [Except.ok.injEq] at h
      subst h
      obtain ⟨_, _, _, _, hres⟩ := mint_ok_elim heq
      rw [hres]
      dsimp only [mintResult]
      omega
  | updateOp sender t a b c =>
    obtain ⟨_, _, _, hres⟩ := update_ok_elim h
    rw [hres]
    exact Nat.le_refl _
  | allowViewerOp sender t v =>
    obtain ⟨_, _, _, hres⟩ := allowViewer_ok_elim h
    rw [hres]
    exact Nat.le_refl _
  | approveOp sender toAddr t =>
    simp only [applyOp, approve] at h
    split at h
    next => exact Except.noConfusion h
    next =>
    split at h
    next => exact Except.noConfusion h
    next =>
    rw [Except.ok.injEq] at h
    subst h
    exact Nat.le_refl _
  | setApprovalForAllOp sender opr b =>
    simp only [applyOp, Except.ok.injEq] at h
    subst h
    exact Nat.le_refl _
  | transferOp sender f t id =>
    obtain ⟨_, _, _, _, _, _, _, _, hNext, _⟩ := transfer_spec hs h
    rw [hNext]

/-- The example state after one mint is reachable. -/
theorem reachable_mintedState1 : Reachable mintedState1 :=
  @Reachable.step initialState mintedState1 (.mintOp 5 4 3 3) .init (by decide) rfl

/-! ## Claim theorems -/

/-- C1: `mintFighter` and `updateAttributes` pass attribute validation iff
each plaintext input is in `[0,10]` (nonnegativity is inherent to `uint32`)
and the three inputs sum to exactly 10; an input above 10 yields
`AttributeOutOfRange`, and in-range inputs with a wrong sum yield
`AttributeTotalMismatch`; concretely `mint(5,3,3)` fails with
`AttributeTotalMismatch` and `mint(4,3,3)` succeeds. -/
theorem fighters_C1 (a b c : Nat) (s : State) (sender tokenId : Nat) :
    (_validateDistribution a b c = .ok () ↔ (a ≤ 10 ∧ b ≤ 10 ∧ c ≤ 10 ∧ a + b + c = 10)) ∧
    ((10 < a ∨ 10 < b ∨ 10 < c) →
      _validateDistribution a b c = .error .AttributeOutOfRange) ∧
    (a ≤ 10 → b ≤ 10 → c ≤ 10 → a + b + c ≠ 10 →
      _validateDistribution a b c = .error .AttributeTotalMismatch) ∧
    ((10 < a ∨ 10 < b ∨ 10 < c) →
      mintFighter s sender a b c = .error .AttributeOutOfRange) ∧
    (a ≤ 10 → b ≤ 10 → c ≤ 10 → a + b + c ≠ 10 →
      mintFighter s sender a b c = .error .AttributeTotalMismatch) ∧
    (_exists s tokenId = true →
      _isApprovedOrOwner s sender tokenId (s.owners tokenId) = true →
      (10 < a ∨ 10 < b ∨ 10 < c) →
      updateAttributes s sender tokenId a b c = .error .AttributeOutOfRange) ∧
    (_exists s tokenId = true →
      _isApprovedOrOwner s sender tokenId (s.owners tokenId) = true →
      a ≤ 10 → b ≤ 10 → c ≤ 10 → a + b + c ≠ 10 →
      updateAttributes s sender tokenId a b c = .error .AttributeTotalMismatch) ∧
    (Reachable s → sender ≠ 0 →
      ((∃ r, mintFighter s sender a b c = .ok r) ↔ _validateDistribution a b c = .ok ())) ∧
    (_exists s tokenId = true →
      _isApprovedOrOwner s sender tokenId (s.owners tokenId) = true →
      ((∃ s', updateAttributes s sender tokenId a b c = .ok s') ↔
        _validateDistribution a b c = .ok ())) ∧
    mintFighter initialState 5 5 3 3 = .error .AttributeTotalMismatch ∧
    (∃ r, mintFighter initialState 5 4 3 3 = .ok r) := by
  refine ⟨validate_ok_iff a b c, validate_oor,
    fun h1 h2 h3 h4 => validate_mismatch h1 h2 h3 h4, ?_, ?_, ?_, ?_, ?_, ?_, rfl,
    ⟨(1, mintedState1), rfl⟩⟩
  · intro h
    rw [mintFighter_eq, validate_oor h]
  · intro h1 h2 h3 h4
    rw [mintFighter_eq, validate_mismatch h1 h2 h3 h4]
  · intro hex hauth h
    rw [updateAttributes_eq, if_neg (not_not_intro hex), if_neg (not_not_intro hauth),
      validate_oor h]
  · intro hex hauth h1 h2 h3 h4
    rw [updateAttributes_eq, if_neg (not_not_intro hex), if_neg (not_not_intro hauth),
      validate_mismatch h1 h2 h3 h4]
  · intro hr hsz
    have hs := reachable_inv hr
    constructor
    · rintro ⟨r, hre⟩
      exact (mint_ok_elim hre).1
    · intro hv
      rw [mintFighter_eq, hv]
      refine ⟨(s.nextTokenId, mintResult s sender), ?_⟩
      dsimp only
      rw [if_neg hsz, if_neg (not_ne_iff.mpr hs.freeId)]
  · intro hex hauth
    rw [updateAttributes_eq, if_neg (not_not_intro hex), if_neg (not_not_intro hauth)]
    cases hv : _validateDistribution a b c with
    | error e =>
      exact iff_of_false (by rintro ⟨s', hs'⟩; simp at hs') (by simp)
    | ok u =>
      cases u
      exact iff_of_true ⟨updateResult s tokenId, rfl⟩ rfl

/-- C1 witness: the characterization evaluated at the spec's own examples. -/
theorem fighters_C1_witness :
    _validateDistribution 4 3 3 = .ok () ∧
    _validateDistribution 5 3 3 = .error .AttributeTotalMismatch ∧
    _validateDistribution 11 0 0 = .error .AttributeOutOfRange := by
  refine ⟨(fighters_C1 4 3 3 initialState 5 1).1.mpr (by decide),
    (fighters_C1 5 3 3 initialState 5 1).2.2.1 (by decide) (by decide) (by decide) (by decide),
    (fighters_C1 11 0 0 initialState 5 1).2.1 (by decide)⟩

/-- C2: in every reachable state, every existing token sits in its owner's
array exactly at the index stored in `_ownedTokensIndex`, occurs exactly
once there, and occurs in no other owner's array. -/
theorem fighters_C2 (s : State) (t a : Nat) (hr : Reachable s)
    (ht : s.owners t ≠ 0) (ha : a ≠ s.owners t) :
    s.ownedTokensIndex t < (s.ownedTokens (s.owners t)).length ∧
    (s.ownedTokens (s.owners t)).getD (s.ownedTokensIndex t) 0 = t ∧
    (s.ownedTokens (s.owners t)).count t = 1 ∧
    t ∉ s.ownedTokens a := by
  have hs := reachable_inv hr
  have hmem : t ∈ s.ownedTokens (s.owners t) := (hs.memIff _ ht t).mpr rfl
  obtain ⟨h1, h2⟩ := hs.idx_get hmem
  refine ⟨h1, h2, List.count_eq_one_of_mem (hs.nodup _) hmem, ?_⟩
  intro hmem2
  rcases eq_or_ne a 0 with rfl | ha0
  · rw [hs.zeroOwned] at hmem2
    simp at hmem2
  · exact ha ((hs.memIff a ha0 t).mp hmem2).symm

/-- C2 witness: the invariant inspected on the state after one mint. -/
theorem fighters_C2_witness :
    mintedState1.ownedTokensIndex 1 < (mintedState1.ownedTokens (mintedState1.owners 1)).length ∧
    (mintedState1.ownedTokens (mintedState1.owners 1)).getD (mintedState1.ownedTokensIndex 1) 0
      = 1 ∧
    (mintedState1.ownedTokens (mintedState1.owners 1)).count 1 = 1 ∧
    1 ∉ mintedState1.ownedTokens 9 :=
  fighters_C2 mintedState1 1 9 reachable_mintedState1 (by decide) (by decide)

/-- C5: from any reachable state a `mintFighter` call by a genuine (nonzero)
caller can fail only with the two attribute-validation errors, and a failed
mint leaves the storage exactly as before (EVM revert semantics), in
particular `totalSupply` and the id the next successful mint will use. -/
theorem fighters_C5 (s : State) (sender a b c : Nat) (e : Err)
    (hr : Reachable s) (hsz : sender ≠ 0)
    (he : mintFighter s sender a b c = .error e) :
    (e = .AttributeOutOfRange ∨ e = .AttributeTotalMismatch) ∧
    stepState s (.mintOp sender a b c) = s ∧
    totalSupply (stepState s (.mintOp sender a b c)) = totalSupply s ∧
    (stepState s (.mintOp sender a b c)).nextTokenId = s.nextTokenId := by
  have hs := reachable_inv hr
  have hstep : stepState s (.mintOp sender a b c) = s := by
    simp [stepState, applyOp, he, Except.map]
  refine ⟨?_, hstep, by rw [hstep], by rw [hstep]⟩
  rw [mintFighter_eq] at he
  split at he
  next e' heq =>
    rw [Except.error.injEq] at he
    subst he
    exact validate_error_cases heq
  next u heq =>
  split at he
  next hsz' => exact absurd hsz' hsz
  next hsz' =>
  split at he
  next hne => exact absurd hs.freeId hne
  next hne => exact Except.noConfusion he

/-- C5 witness: the failing example `mint(5,3,3)` from the deployment state. -/
theorem fighters_C5_witness :
    (Err.AttributeTotalMismatch = Err.AttributeOutOfRange ∨
      Err.AttributeTotalMismatch = Err.AttributeTotalMismatch) ∧
    stepState initialState (.mintOp 5 5 3 3) = initialState ∧
    totalSupply (stepState initialState (.mintOp 5 5 3 3)) = totalSupply initialState ∧
    (stepState initialState (.mintOp 5 5 3 3)).nextTokenId = initialState.nextTokenId :=
  fighters_C5 initialState 5 5 3 3 .AttributeTotalMismatch .init (by decide) rfl

/-- C10: in every reachable state the stored balance counter of every
address equals the length of its owned-token array (`fightersOf`). -/
theorem fighters_C10 (s : State) (a : Nat) (hr : Reachable s) :
    s.balances a = (fightersOf s a).length :=
  (reachable_inv hr).balOk a

/-- C10 witness: checked on the state after one mint. -/
theorem fighters_C10_witness :
    mintedState1.balances 5 = (fightersOf mintedState1 5).length :=
  fighters_C10 mintedState1 5 reachable_mintedState1

/-- A grant issued to a fresh handle bucket reaches nobody but the listed
grantee: evaluating `_allowViewer`'s triple grant over fresh handles at any
other viewer yields `false`. -/
theorem grantHandle_triple_fresh {s : State} (hs : Inv s) (owner v k : Nat)
    (hk : s.nextHandle ≤ k) (hv : v ≠ owner) :
    grantHandle (grantHandle (grantHandle s.acl s.nextHandle owner)
      (s.nextHandle + 1) owner) (s.nextHandle + 2) owner k v = false := by
  have hiff := grantHandle_triple_iff s.acl
    ⟨s.nextHandle, s.nextHandle + 1, s.nextHandle + 2⟩ owner k v
  by_cases hb : grantHandle (grantHandle (grantHandle s.acl s.nextHandle owner)
      (s.nextHandle + 1) owner) (s.nextHandle + 2) owner k v = true
  · exfalso
    rcases hiff.mp hb with hacl | ⟨rfl, -⟩
    · have hfr := hs.aclFresh k v hk
      rw [hfr] at hacl
      exact Bool.noConfusion hacl
    · exact hv rfl
  · exact Bool.eq_false_iff.mpr hb

/-- C3 refutation: the claim quantifies over every successful
`transfer(A, B, t)`, but a self-transfer (`A = B`) succeeds and leaves the
token in `ownedBy(A)`.  Concretely, after address `5` mints token `1`,
`transferFrom(5, 5, 1)` succeeds yet `fightersOf(5)` still contains `1`, so
"`ownedBy(A)` no longer contains `t`" fails. -/
theorem fighters_C3_counterexample :
    _transfer mintedState1 5 5 5 1 = .ok selfTransState ∧
    1 ∈ selfTransState.ownedTokens 5 ∧
    selfTransState.owners 1 = 5 :=
  ⟨rfl, by decide, by decide⟩

/-- C3 (amended): after every successful `transfer(A, B, t)` from a
reachable state, the new owner `B` is granted on all three current handles
(`canRead` is true for `B`) even with no `grantViewer` call, `ownerOf(t) =
B`, the single-token approval for `t` is cleared, `ownedBy(B)` contains `t`
exactly once, and — provided `A ≠ B` (a self-transfer keeps the token in
`ownedBy(A) = ownedBy(B)`) — `ownedBy(A)` no longer contains `t`. -/
theorem fighters_C3_amended (s : State) (sender A B t : Nat) (s' : State)
    (hr : Reachable s) (h : _transfer s sender A B t = .ok s') :
    canRead s' (s'.fighterAttributes t).agility B = true ∧
    canRead s' (s'.fighterAttributes t).strength B = true ∧
    canRead s' (s'.fighterAttributes t).stamina B = true ∧
    (A ≠ B → t ∉ s'.ownedTokens A) ∧
    (s'.ownedTokens B).count t = 1 ∧
    s'.owners t = B ∧
    s'.tokenApprovals t = 0 := by
  have hs := reachable_inv hr
  obtain ⟨ht0, hf0, hown, hauth, hOw, hAppr, hOp, hAttr, hNext, hMint, hHandle, hAclT,
    hAcl, hself, hmove⟩ := transfer_spec hs h
  have hgr := grantHandle_triple_self s.acl (s.fighterAttributes t) B
  refine ⟨?_, ?_, ?_, ?_, ?_, ?_, ?_⟩
  · show s'.acl (s'.fighterAttributes t).agility B = true
    rw [hAttr, hAcl]
    exact hgr.1
  · show s'.acl (s'.fighterAttributes t).strength B = true
    rw [hAttr, hAcl]
    exact hgr.2.1
  · show s'.acl (s'.fighterAttributes t).stamina B = true
    rw [hAttr, hAcl]
    exact hgr.2.2
  · intro hne hmem
    exact (((hmove hne).1 t).mp hmem).2 rfl
  · by_cases hft : A = B
    · rw [(hself hft).1]
      have hmem : t ∈ s.ownedTokens B := (hs.memIff B ht0 t).mpr (hown.trans hft)
      exact List.count_eq_one_of_mem (hs.nodup B) hmem
    · obtain ⟨_, hLTo, _⟩ := hmove hft
      rw [hLTo, List.count_append]
      have hnot : t ∉ s.ownedTokens B := by
        intro hmem
        have hmem2 := (hs.memIff B ht0 t).mp hmem
        rw [hown] at hmem2
        exact hft hmem2
      rw [List.count_eq_zero.mpr hnot]
      simp
  · simp [hOw]
  · simp [hAppr]

/-- C3 witness: the amended claim evaluated on the genuine transfer
`5 → 7` of token `1`. -/
theorem fighters_C3_witness :
    canRead transState (transState.fighterAttributes 1).agility 7 = true ∧
    (5 ≠ 7 → 1 ∉ transState.ownedTokens 5) ∧
    (transState.ownedTokens 7).count 1 = 1 ∧
    transState.owners 1 = 7 ∧
    transState.tokenApprovals 1 = 0 := by
  have h := fighters_C3_amended mintedState1 5 5 7 1 transState reachable_mintedState1 rfl
  exact ⟨h.1, h.2.2.2.1, h.2.2.2.2.1, h.2.2.2.2.2.1, h.2.2.2.2.2.2⟩

/-- C4: after every successful `updateAttributes` from a reachable state,
the three freshly created handles are granted to the service identity (the
contract, via `FHE.allowThis`) and to the token's current owner — not to
the caller, when the caller is a mere delegate — and no other address (in
particular no viewer granted only on the pre-update handles) has any grant
on the new handles until re-granted. -/
theorem fighters_C4 (s : State) (sender tok a b c : Nat) (s' : State) (v : Nat)
    (hr : Reachable s) (h : updateAttributes s sender tok a b c = .ok s') :
    s'.aclThis (s'.fighterAttributes tok).agility = true ∧
    s'.aclThis (s'.fighterAttributes tok).strength = true ∧
    s'.aclThis (s'.fighterAttributes tok).stamina = true ∧
    canRead s' (s'.fighterAttributes tok).agility (s.owners tok) = true ∧
    canRead s' (s'.fighterAttributes tok).strength (s.owners tok) = true ∧
    canRead s' (s'.fighterAttributes tok).stamina (s.owners tok) = true ∧
    (v ≠ s.owners tok →
      canRead s' (s'.fighterAttributes tok).agility v = false ∧
      canRead s' (s'.fighterAttributes tok).strength v = false ∧
      canRead s' (s'.fighterAttributes tok).stamina v = false) := by
  have hs := reachable_inv hr
  obtain ⟨hex, hauth, hval, hres⟩ := update_ok_elim h
  subst hres
  have hat : (updateResult s tok).fighterAttributes tok =
      ⟨s.nextHandle, s.nextHandle + 1, s.nextHandle + 2⟩ := by
    dsimp only [updateResult]
    rw [if_pos rfl]
  rw [hat]
  have hgr := grantHandle_triple_self s.acl
    ⟨s.nextHandle, s.nextHandle + 1, s.nextHandle + 2⟩ (s.owners tok)
  refine ⟨?_, ?_, ?_, hgr.1, hgr.2.1, hgr.2.2, ?_⟩
  · dsimp only [updateResult]
    rw [if_pos (Or.inl rfl)]
  · dsimp only [updateResult]
    rw [if_pos (Or.inr (Or.inl rfl))]
  · dsimp only [updateResult]
    rw [if_pos (Or.inr (Or.inr rfl))]
  · intro hv
    exact ⟨grantHandle_triple_fresh hs (s.owners tok) v s.nextHandle (Nat.le_refl _) hv,
      grantHandle_triple_fresh hs (s.owners tok) v (s.nextHandle + 1) (by omega) hv,
      grantHandle_triple_fresh hs (s.owners tok) v (s.nextHandle + 2) (by omega) hv⟩

/-- C4 witness: the update `update(1, 2, 5, 3)` by the owner, with viewer
`7` having no grant on the new handles. -/
theorem fighters_C4_witness :
    updState.aclThis (updState.fighterAttributes 1).agility = true ∧
    canRead updState (updState.fighterAttributes 1).agility
      (mintedState1.owners 1) = true ∧
    (7 ≠ mintedState1.owners 1 →
      canRead updState (updState.fighterAttributes 1).agility 7 = false ∧
      canRead updState (updState.fighterAttributes 1).strength 7 = false ∧
      canRead updState (updState.fighterAttributes 1).stamina 7 = false) := by
  have h := fighters_C4 mintedState1 5 1 2 5 3 updState 7 reachable_mintedState1 rfl
  exact ⟨h.1, h.2.2.2.1, h.2.2.2.2.2.2⟩

/-- C7: `allowViewer` fails with `FighterDoesNotExist` on an unknown token,
with `InvalidAddress` on the null viewer, with `NotAuthorized` when the
caller is neither owner nor approved nor operator (checked in that order);
on success it adds the viewer to the ACL of exactly the token's three
current handles and changes nothing else. -/
theorem fighters_C7 (s : State) (sender tok v : Nat) :
    (¬ _exists s tok = true →
      allowViewer s sender tok v = .error (.FighterDoesNotExist tok)) ∧
    (_exists s tok = true → v = 0 →
      allowViewer s sender tok v = .error .InvalidAddress) ∧
    (_exists s tok = true → v ≠ 0 →
      ¬ _isApprovedOrOwner s sender tok (s.owners tok) = true →
      allowViewer s sender tok v = .error .NotAuthorized) ∧
    (∀ s', allowViewer s sender tok v = .ok s' →
      s'.owners = s.owners ∧ s'.balances = s.balances ∧
      s'.tokenApprovals = s.tokenApprovals ∧ s'.operatorApprovals = s.operatorApprovals ∧
      s'.ownedTokens = s.ownedTokens ∧ s'.ownedTokensIndex = s.ownedTokensIndex ∧
      s'.fighterAttributes = s.fighterAttributes ∧ s'.nextTokenId = s.nextTokenId ∧
      s'.totalMinted = s.totalMinted ∧ s'.nextHandle = s.nextHandle ∧
      s'.aclThis = s.aclThis ∧
      (∀ h0 v0, s'.acl h0 v0 = true ↔
        (s.acl h0 v0 = true ∨ (v0 = v ∧ (h0 = (s.fighterAttributes tok).agility ∨
          h0 = (s.fighterAttributes tok).strength ∨
          h0 = (s.fighterAttributes tok).stamina))))) := by
  refine ⟨?_, ?_, ?_, ?_⟩
  · intro hnex
    unfold allowViewer
    rw [if_pos hnex]
  · intro hex hv0
    unfold allowViewer
    rw [if_neg (not_not_intro hex), if_pos hv0]
  · intro hex hv0 hnauth
    unfold allowViewer
    rw [if_neg (not_not_intro hex), if_neg hv0, if_pos hnauth]
  · intro s' h
    obtain ⟨hex, hv0, hauth, hres⟩ := allowViewer_ok_elim h
    subst hres
    refine ⟨rfl, rfl, rfl, rfl, rfl, rfl, rfl, rfl, rfl, rfl, rfl, ?_⟩
    intro h0 v0
    exact grantHandle_triple_iff s.acl (s.fighterAttributes tok) v h0 v0

/-- C7 witness: the three error branches plus the frame of a successful
grant, on the state after one mint. -/
theorem fighters_C7_witness :
    allowViewer mintedState1 5 2 7 = .error (.FighterDoesNotExist 2) ∧
    allowViewer mintedState1 5 1 0 = .error .InvalidAddress ∧
    allowViewer mintedState1 9 1 7 = .error .NotAuthorized ∧
    viewState.balances = mintedState1.balances := by
  refine ⟨(fighters_C7 mintedState1 5 2 7).1 (by decide),
    (fighters_C7 mintedState1 5 1 0).2.1 (by decide) rfl,
    (fighters_C7 mintedState1 9 1 7).2.2.1 (by decide) (by decide) (by decide),
    ((fighters_C7 mintedState1 5 1 7).2.2.2 viewState rfl).2.1⟩

/-- C9: from a reachable state, a self-transfer of an owned token by an
authorized caller succeeds and leaves the owner's ordered token array, the
reverse position index, the owner map, and every balance unchanged; its
only effects are clearing the single-token approval and (idempotently)
re-granting the owner on the current handles. -/
theorem fighters_C9 (s : State) (sender A t : Nat) (hr : Reachable s)
    (hown : s.owners t = A) (hA : A ≠ 0)
    (hauth : _isApprovedOrOwner s sender t A = true) :
    ∃ s', _transfer s sender A A t = .ok s' ∧
      s'.ownedTokens = s.ownedTokens ∧ s'.ownedTokensIndex = s.ownedTokensIndex ∧
      s'.owners = s.owners ∧ s'.balances = s.balances ∧
      s'.operatorApprovals = s.operatorApprovals ∧
      s'.fighterAttributes = s.fighterAttributes ∧
      s'.nextTokenId = s.nextTokenId ∧ s'.totalMinted = s.totalMinted ∧
      s'.nextHandle = s.nextHandle ∧ s'.aclThis = s.aclThis ∧
      s'.tokenApprovals t = 0 ∧
      (∀ t0, t0 ≠ t → s'.tokenApprovals t0 = s.tokenApprovals t0) ∧
      (∀ h0 v0, s'.acl h0 v0 = true ↔ (s.acl h0 v0 = true ∨
        (v0 = A ∧ (h0 = (s.fighterAttributes t).agility ∨
          h0 = (s.fighterAttributes t).strength ∨
          h0 = (s.fighterAttributes t).stamina)))) := by
  have hs := reachable_inv hr
  have hex : _exists s t = true := by
    simp [_exists, hown, hA]
  have hauth' : _isApprovedOrOwner s sender t (s.owners t) = true := by
    rw [hown]; exact hauth
  have hmem : t ∈ s.ownedTokens A := (hs.memIff A hA t).mpr hown
  have hbal : ¬ s.balances A = 0 := by
    rw [hs.balOk A]
    intro h0
    rw [List.length_eq_zero] at h0
    rw [h0] at hmem
    simp at hmem
  have hbefore : _beforeTokenTransfer s A A t = .ok s := by
    unfold _beforeTokenTransfer
    rw [if_pos rfl]
  have htr : ∃ s2, _transfer s sender A A t = .ok s2 := by
    cases hcase : _transfer s sender A A t with
    | ok s2 => exact ⟨s2, rfl⟩
    | error e =>
      exfalso
      unfold _transfer at hcase
      rw [if_neg hA, if_neg (not_not_intro hex), if_neg (not_ne_iff.mpr hown),
        if_neg (not_not_intro hauth'), if_neg hA, hbefore] at hcase
      dsimp only at hcase
      rw [if_neg hbal] at hcase
      exact Except.noConfusion hcase
  obtain ⟨s2, he⟩ := htr
  obtain ⟨ht0, hf0, hown2, hauth2, hOw, hAppr, hOp, hAttr, hNext, hMint, hHandle, hAclT,
    hAcl, hself, hmove⟩ := transfer_spec hs he
  obtain ⟨hL, hI, hB⟩ := hself rfl
  refine ⟨s2, he, hL, hI, ?_, hB, hOp, hAttr, hNext, hMint, hHandle, hAclT, ?_, ?_, ?_⟩
  · funext t0
    simp only [hOw]
    by_cases ht0' : t0 = t
    · rw [if_pos ht0', ht0', hown]
    · rw [if_neg ht0']
  · simp [hAppr]
  · intro t0 hne
    simp only [hAppr]
    rw [if_neg hne]
  · intro h0 v0
    rw [show s2.acl = _ from hAcl]
    exact grantHandle_triple_iff s.acl (s.fighterAttributes t) A h0 v0

/-- C9 witness: the self-transfer of token `1` by its owner `5`. -/
theorem fighters_C9_witness :
    selfTransState.ownedTokens 5 = mintedState1.ownedTokens 5 ∧
    selfTransState.balances 5 = mintedState1.balances 5 ∧
    selfTransState.owners 1 = mintedState1.owners 1 ∧
    selfTransState.tokenApprovals 1 = 0 := by
  obtain ⟨s', he, hL, hI, hOw, hB, -, -, -, -, -, -, hAp, -, -⟩ :=
    fighters_C9 mintedState1 5 5 1 reachable_mintedState1 (by decide) (by decide) (by decide)
  have hsel : selfTransState = s' := by
    unfold selfTransState stepState
    rw [show applyOp mintedState1 (.transferOp 5 5 5 1) = .ok s' from he]
  rw [hsel, congrFun hL 5, congrFun hB 5, congrFun hOw 1]
  exact ⟨rfl, rfl, rfl, hAp⟩

/-- In an invariant-satisfying state, the number of existing tokens owned
by a (nonzero) owner equals the length of that owner's array. -/
theorem ownedTokens_card {s : State} (hs : Inv s) (a : Nat) (ha : a ≠ 0) :
    ((Finset.range s.nextTokenId).filter fun t => s.owners t = a).card
      = (s.ownedTokens a).length := by
  rw [← List.toFinset_card_of_nodup (hs.nodup a)]
  congr 1
  ext t
  simp only [Finset.mem_filter, Finset.mem_range, List.mem_toFinset]
  constructor
  · rintro ⟨-, howner⟩
    exact (hs.memIff a ha t).mpr howner
  · intro hmem
    have howner := (hs.memIff a ha t).mp hmem
    have hb := hs.bound t (by rw [howner]; exact ha)
    exact ⟨by omega, howner⟩

/-- C6: in every reachable state, for every owner the length of
`fightersOf(owner)` equals the number of existing tokens whose owner it is,
the number of existing tokens equals `totalSupply()`, and summing the
per-owner counts over all owners that own anything gives `totalSupply()`. -/
theorem fighters_C6 (s : State) (a : Nat) (hr : Reachable s) :
    (a ≠ 0 → ((Finset.range s.nextTokenId).filter fun t => s.owners t = a).card
      = (fightersOf s a).length) ∧
    ((Finset.range s.nextTokenId).filter fun t => s.owners t ≠ 0).card = totalSupply s ∧
    (∑ b ∈ ((Finset.range s.nextTokenId).filter fun t => s.owners t ≠ 0).image s.owners,
      (fightersOf s b).length) = totalSupply s := by
  have hs := reachable_inv hr
  simp only [fightersOf, totalSupply]
  refine ⟨fun ha => ownedTokens_card hs a ha, hs.supply, ?_⟩
  rw [← hs.supply, Finset.card_eq_sum_card_image s.owners]
  refine Finset.sum_congr rfl ?_
  intro b hb
  have hb0 : b ≠ 0 := by
    rw [Finset.mem_image] at hb
    obtain ⟨t, ht, rfl⟩ := hb
    rw [Finset.mem_filter] at ht
    exact ht.2
  rw [← ownedTokens_card hs b hb0]
  congr 1
  ext t
  simp only [Finset.mem_filter, Finset.mem_range]
  constructor
  · rintro ⟨h1, h2⟩
    exact ⟨⟨h1, by rw [h2]; exact hb0⟩, h2⟩
  · rintro ⟨⟨h1, h2⟩, h3⟩
    exact ⟨h1, h3⟩

/-- C6 witness: the conservation law on the state after one mint. -/
theorem fighters_C6_witness :
    ((Finset.range mintedState1.nextTokenId).filter
      fun t => mintedState1.owners t = 5).card = (fightersOf mintedState1 5).length ∧
    ((Finset.range mintedState1.nextTokenId).filter
      fun t => mintedState1.owners t ≠ 0).card = totalSupply mintedState1 := by
  have h := fighters_C6 mintedState1 5 reachable_mintedState1
  exact ⟨h.1 (by decide), h.2.1⟩

/-- C8: ids come from the allocator starting at 1; the allocator never
decreases under any successful entry point and strictly increases at each
mint, a successful mint returns exactly the allocator value — strictly
above every existing token id, and in particular unowned — so the
`TokenAlreadyMinted` revert branch of `_mint` is unreachable from any
reachable state. -/
theorem fighters_C8 (s : State) (op : Op) (s' : State) (sender a b c tid : Nat)
    (s2 : State) (hr : Reachable s) :
    (applyOp s op = .ok s' → s.nextTokenId ≤ s'.nextTokenId) ∧
    1 ≤ s.nextTokenId ∧
    (mintFighter s sender a b c = .ok (tid, s2) →
      tid = s.nextTokenId ∧ s2.nextTokenId = s.nextTokenId + 1 ∧
      _exists s tid = false ∧ (∀ t, _exists s t = true → t < tid)) ∧
    (∀ t', mintFighter s sender a b c ≠ .error (.TokenAlreadyMinted t')) := by
  have hs := reachable_inv hr
  refine ⟨applyOp_nextTokenId hs, by have := hs.counter; omega, ?_, ?_⟩
  · intro h
    obtain ⟨hval, hsz, hfree, htid, hres⟩ := mint_ok_elim h
    subst htid
    refine ⟨rfl, ?_, ?_, ?_⟩
    · rw [hres]
      rfl
    · simp [_exists, hfree]
    · intro t ht
      simp only [_exists, bne_iff_ne, ne_eq] at ht
      have := hs.bound t ht
      omega
  · intro t' hcontra
    rw [mintFighter_eq] at hcontra
    split at hcontra
    next e heq =>
      rw [Except.error.injEq] at hcontra
      rcases validate_error_cases heq with rfl | rfl
      · exact Err.noConfusion hcontra
      · exact Err.noConfusion hcontra
    next u heq =>
    split at hcontra
    next hsz =>
      rw [Except.error.injEq] at hcontra
      exact Err.noConfusion hcontra
    next hsz =>
    split at hcontra
    next hne => exact absurd hs.freeId hne
    next hne => exact Except.noConfusion hcontra

/-- C8 witness: the first mint from deployment returns id `1`. -/
theorem fighters_C8_witness :
    1 ≤ initialState.nextTokenId ∧
    1 = initialState.nextTokenId ∧
    mintedState1.nextTokenId = initialState.nextTokenId + 1 ∧
    _exists initialState 1 = false := by
  have h := fighters_C8 initialState (.mintOp 5 4 3 3) mintedState1 5 4 3 3 1 mintedState1
    .init
  obtain ⟨h1, h2, h3, h4⟩ := h.2.2.1 rfl
  exact ⟨h.2.1, h1, h2, h3⟩

end FighterNFT
